import Mathlib

/-!
Verification development for the EIFL continuous-integration server.

The definitions below are a shallow embedding of the TypeScript sources:

* `src/pipeline/parser.ts` — manifest validation, branch-pattern matching
  (`validatePipelineConfig`, `shouldTriggerOnPush`, `matchBranch`);
* `src/pipeline/trigger.ts` — `handlePushTrigger`'s `next_run_at` computation;
* `src/pipeline/cron.ts` — `processScheduledPipelines`;
* `src/db/queries.ts` — row-level store operations (`updateRunStatus`,
  `getPendingRuns`, `compareMetricsToBaselines`, `incrementRunnerActiveJobs`,
  `decrementRunnerActiveJobs`, `getSecretsForRepo`);
* `src/api/runner.ts` — the dispatcher (`handlePollForJob`,
  `runnerMatchesTags`) and the runner callbacks (`handleRunComplete`);
* `runner/executor.ts` — `evaluateCondition` and the step loop of
  `executeJob`;
* `src/lib/crypto.ts` — `encryptSecret` / `decryptSecret`.

SQLite tables become Lean lists of rows; timestamps become abstract `Nat`
instants supplied by the caller (the source reads the wall clock);
`float64` metric values become `ℚ` (every computation the source performs
on them is exact field arithmetic); JavaScript `undefined` becomes
`Option.none`.
-/

namespace Eifl

/-- Run status enum (`src/db/schema.ts`: `RunStatus`). -/
inductive RunStatus where
  | pending | running | success | failed | cancelled
  deriving DecidableEq, Repr

/-- Step status enum (`src/db/schema.ts`: `StepStatus`). -/
inductive StepStatus where
  | pending | running | success | failed | skipped
  deriving DecidableEq, Repr

/-- Runner status enum (`src/db/schema.ts`: `RunnerStatus`). -/
inductive RunnerStatus where
  | online | offline | busy
  deriving DecidableEq, Repr

/-- One `schedule` entry of the raw manifest: `{cron: string}`. -/
structure RawSchedule where
  cron : String
  deriving DecidableEq, Repr

/-- Raw `triggers.push` object of the manifest. -/
structure RawPush where
  branches : Option (List String)
  deriving DecidableEq, Repr

/-- Raw `triggers` object of the manifest, as it appears in `.eifl.json`:
it may carry `push`, `manual` and `schedule` entries. -/
structure RawTriggers where
  push : Option RawPush
  manual : Option Bool
  schedule : Option (List RawSchedule)
  deriving DecidableEq, Repr

/-- Raw manifest step; `ifCond` stands for the source's `if` field
(`if` is reserved in Lean). -/
structure RawStep where
  name : Option String
  run : Option String
  capture_sizes : Option (List String)
  ifCond : Option String
  deriving DecidableEq, Repr

/-- The raw `.eifl.json` manifest presented to `validatePipelineConfig`
(`src/pipeline/parser.ts`).  Fields are `Option` because every one of them
may be missing in the JSON input. -/
structure RawConfig where
  name : Option String
  triggers : Option RawTriggers
  runner_tags : Option (List String)
  steps : Option (List RawStep)
  deriving DecidableEq, Repr

/-- Validated step (`src/pipeline/parser.ts`: `PipelineStep`). -/
structure PipelineStep where
  name : String
  run : String
  capture_sizes : Option (List String)
  ifCond : Option String
  deriving DecidableEq, Repr

/-- Validated triggers (`src/pipeline/parser.ts`: `PipelineTriggers`).
The TypeScript interface declares only `push` and `manual`; reading
`triggers.schedule` on a validated config therefore yields `undefined` at
runtime.  We keep an explicit `schedule` field so that call sites of the
source which do read `config.triggers?.schedule` (`cron.ts` line 49,
`trigger.ts` line 55) can be translated literally; `validatePipelineConfig`
never populates it, exactly as the source never copies it. -/
structure PipelineTriggers where
  push : Option RawPush
  manual : Option Bool
  schedule : Option (List RawSchedule)
  deriving DecidableEq, Repr

/-- Validated pipeline config (`src/pipeline/parser.ts`: `PipelineConfig`). -/
structure PipelineConfig where
  name : String
  triggers : Option PipelineTriggers
  runner_tags : Option (List String)
  steps : List PipelineStep
  deriving DecidableEq, Repr

/-- JavaScript `String.prototype.trim` (whitespace stripped from both
ends), implemented by structural recursion over the character list. -/
def jsTrim (s : String) : String :=
  ⟨((s.data.dropWhile Char.isWhitespace).reverse.dropWhile Char.isWhitespace).reverse⟩

/-- JavaScript `String.prototype.startsWith`. -/
def jsStartsWith (s pre : String) : Bool := pre.data.isPrefixOf s.data

/-- JavaScript `String.prototype.endsWith`. -/
def jsEndsWith (s suffix : String) : Bool := suffix.data.isSuffixOf s.data

/-- Validate one raw step (`validatePipelineConfig`, loop body over
`c.steps`). -/
def validateStep (i : Nat) (s : RawStep) : Except String PipelineStep :=
  match s.name with
  | none => .error s!"Step {i} must have a non-empty 'name' field"
  | some n =>
    if jsTrim n = "" then .error s!"Step {i} must have a non-empty 'name' field"
    else
      match s.run with
      | none => .error s!"Step {i} must have a non-empty 'run' field"
      | some r =>
        if jsTrim r = "" then .error s!"Step {i} must have a non-empty 'run' field"
        else .ok { name := n, run := r, capture_sizes := s.capture_sizes,
                   ifCond := s.ifCond }

/-- Validate the list of raw steps in order, mirroring the indexed `for`
loop of the source. -/
def validateSteps (i : Nat) : List RawStep → Except String (List PipelineStep)
  | [] => .ok []
  | s :: rest => do
    let s' ← validateStep i s
    let rest' ← validateSteps (i + 1) rest
    .ok (s' :: rest')

/-- The `triggers` block of `validatePipelineConfig` (parser.ts lines
195–226): when `triggers` is present the source builds a fresh
`triggers = {}` object and copies only the `push` and `manual` entries
into it; a `schedule` entry of the raw input is never read and never
copied, so the validated config's `triggers.schedule` is always
`undefined` (`none` here). -/
def validateTriggers : Option RawTriggers → Option PipelineTriggers
  | none => none
  | some t => some { push := t.push, manual := t.manual, schedule := none }

/-- The manifest validator (`src/pipeline/parser.ts`:
`validatePipelineConfig`). -/
def validatePipelineConfig (c : RawConfig) : Except String PipelineConfig :=
  match c.name with
  | none => .error "Pipeline must have a non-empty 'name' field"
  | some n =>
    if jsTrim n = "" then .error "Pipeline must have a non-empty 'name' field"
    else
      match c.steps with
      | none => .error "Pipeline must have at least one step"
      | some l =>
        if l.isEmpty then .error "Pipeline must have at least one step"
        else
          match validateSteps 0 l with
          | .error e => .error e
          | .ok steps =>
            .ok { name := n, triggers := validateTriggers c.triggers,
                  runner_tags := c.runner_tags, steps := steps }

/-- Branch pattern matching (`src/pipeline/parser.ts`: `matchBranch`). -/
def matchBranch (pattern branch : String) : Bool :=
  if pattern = "*" then true
  else if jsEndsWith pattern "*" then jsStartsWith branch (pattern.dropRight 1)
  else if jsStartsWith pattern "*" then jsEndsWith branch (pattern.drop 1)
  else pattern = branch

/-- Push-trigger predicate (`src/pipeline/parser.ts`:
`shouldTriggerOnPush`). -/
def shouldTriggerOnPush (config : PipelineConfig) (branch : String) : Bool :=
  match config.triggers with
  | none => true
  | some triggers =>
    match triggers.push with
    | none => false
    | some push =>
      match push.branches with
      | none => true
      | some branches =>
        if branches.isEmpty then true
        else branches.any fun pattern => matchBranch pattern branch

end Eifl

namespace Eifl

/-- A `runs` row (`src/db/schema.ts`: `Run`); timestamps are abstract
instants. -/
structure Run where
  id : Nat
  pipeline_id : Nat
  status : RunStatus
  commit_sha : Option String
  branch : Option String
  triggered_by : Option String
  started_at : Option Nat
  finished_at : Option Nat
  created_at : Nat
  deriving DecidableEq, Repr

/-- A `steps` row (`src/db/schema.ts`: `Step`). -/
structure Step where
  id : Nat
  run_id : Nat
  name : String
  command : String
  status : StepStatus
  exit_code : Option Int
  output : Option String
  started_at : Option Nat
  finished_at : Option Nat
  deriving DecidableEq, Repr

/-- A `metrics` row; `value` is SQLite `REAL`, modelled as `ℚ`. -/
structure Metric where
  id : Nat
  run_id : Nat
  key : String
  value : ℚ
  unit : Option String
  deriving DecidableEq, Repr

/-- A `baselines` row. -/
structure Baseline where
  id : Nat
  pipeline_id : Nat
  key : String
  baseline_value : ℚ
  tolerance_pct : ℚ
  deriving DecidableEq, Repr

/-- A `runners` row.  The source stores `tags` as a JSON text column and
parses it with `getRunnerTags`; we carry the parsed list directly.
`active_jobs` is an SQLite INTEGER, modelled as `Int` so that the clamp
in `decrementRunnerActiveJobs` is meaningful. -/
structure Runner where
  id : Nat
  name : String
  token : String
  status : RunnerStatus
  tags : List String
  max_concurrency : Int
  active_jobs : Int
  last_seen : Option Nat
  deriving DecidableEq, Repr

/-- A `secrets` row (`scope` is `"project"` or `"repo"`). -/
structure Secret where
  scope : String
  scope_id : Nat
  name : String
  encrypted_value : String
  iv : String
  deriving DecidableEq, Repr

/-- A `pipelines` row; `config` is the stored manifest (JSON text in the
source, parsed on read). -/
structure Pipeline where
  id : Nat
  repo_id : Nat
  name : String
  config : RawConfig
  next_run_at : Option Nat
  deriving DecidableEq, Repr

/-- A `repos` row. -/
structure Repo where
  id : Nat
  project_id : Nat
  name : String
  path : String
  remote_url : Option String
  default_branch : String
  deriving DecidableEq, Repr

/-- The SQLite database state; `nextRunId`/`nextStepId`/`nextMetricId`
model the AUTOINCREMENT counters. -/
structure Db where
  pipelines : List Pipeline
  repos : List Repo
  runs : List Run
  steps : List Step
  metrics : List Metric
  baselines : List Baseline
  runners : List Runner
  secrets : List Secret
  nextPipelineId : Nat
  nextRunId : Nat
  nextStepId : Nat
  nextMetricId : Nat
  deriving Repr

/-- `SELECT * FROM runs WHERE id = ?` (`queries.ts`: `getRun`). -/
def getRun (db : Db) (id : Nat) : Option Run :=
  db.runs.find? fun r => r.id = id

/-- `SELECT * FROM pipelines WHERE id = ?` (`queries.ts`: `getPipeline`). -/
def getPipeline (db : Db) (id : Nat) : Option Pipeline :=
  db.pipelines.find? fun p => p.id = id

/-- `SELECT * FROM repos WHERE id = ?` (`queries.ts`: `getRepo`). -/
def getRepo (db : Db) (id : Nat) : Option Repo :=
  db.repos.find? fun r => r.id = id

/-- `queries.ts`: `updateRunStatus`.  The SQL is an **unconditional**
update keyed only on `id`: `running` also sets `started_at`, a terminal
status also sets `finished_at`, any other status writes the bare status.
There is no `AND status = ...` clause in any branch. -/
def updateRunRow (now : Nat) (id : Nat) (status : RunStatus) (r : Run) : Run :=
  if r.id = id then
    if status = .running then
      { r with status := status, started_at := some now }
    else if status = .success ∨ status = .failed ∨ status = .cancelled then
      { r with status := status, finished_at := some now }
    else
      { r with status := status }
  else r

/-- The store-level effect of `updateRunStatus` on the `runs` table. -/
def updateRunStatus (now : Nat) (id : Nat) (status : RunStatus) (db : Db) : Db :=
  { db with runs := db.runs.map (updateRunRow now id status) }

/-- Ordering relation used by `ORDER BY created_at ASC`. -/
def runCreatedLe (a b : Run) : Prop := a.created_at ≤ b.created_at

instance : DecidableRel runCreatedLe := fun a b => Nat.decLe _ _

instance : IsTotal Run runCreatedLe := ⟨fun _ _ => Nat.le_total _ _⟩

instance : IsTrans Run runCreatedLe := ⟨fun _ _ _ => Nat.le_trans⟩

/-- `SELECT * FROM runs WHERE status = 'pending' ORDER BY created_at ASC`
(`queries.ts`: `getPendingRuns`). -/
def getPendingRuns (db : Db) : List Run :=
  (db.runs.filter fun r => r.status = .pending).insertionSort runCreatedLe

/-- `queries.ts`: `hasPendingOrRunningRun`. -/
def hasPendingOrRunningRun (db : Db) (pipelineId : Nat) : Bool :=
  db.runs.any fun r =>
    r.pipeline_id = pipelineId ∧ (r.status = .pending ∨ r.status = .running)

/-- `queries.ts`: `createRun` — inserts a fresh `pending` run. -/
def createRun (now : Nat) (pipelineId : Nat) (commitSha branch triggeredBy : Option String)
    (db : Db) : Run × Db :=
  let run : Run :=
    { id := db.nextRunId, pipeline_id := pipelineId, status := .pending,
      commit_sha := commitSha, branch := branch, triggered_by := triggeredBy,
      started_at := none, finished_at := none, created_at := now }
  (run, { db with runs := db.runs ++ [run], nextRunId := db.nextRunId + 1 })

/-- `queries.ts`: `createStep`. -/
def createStep (runId : Nat) (name command : String) (db : Db) : Db :=
  let step : Step :=
    { id := db.nextStepId, run_id := runId, name := name, command := command,
      status := .pending, exit_code := none, output := none,
      started_at := none, finished_at := none }
  { db with steps := db.steps ++ [step], nextStepId := db.nextStepId + 1 }

/-- `queries.ts`: `createMetric` — appends unconditionally. -/
def createMetric (runId : Nat) (key : String) (value : ℚ) (unit : Option String)
    (db : Db) : Db :=
  let m : Metric :=
    { id := db.nextMetricId, run_id := runId, key := key, value := value,
      unit := unit }
  { db with metrics := db.metrics ++ [m], nextMetricId := db.nextMetricId + 1 }

/-- `SELECT * FROM steps WHERE run_id = ? ORDER BY id` (`queries.ts`:
`getSteps`); steps are inserted with ascending ids so the filtered list is
already in id order. -/
def getSteps (db : Db) (runId : Nat) : List Step :=
  db.steps.filter fun s => s.run_id = runId

/-- `queries.ts`: `updateRunnerStatus` — sets status and refreshes
`last_seen`. -/
def updateRunnerStatus (now : Nat) (id : Nat) (status : RunnerStatus) (db : Db) : Db :=
  { db with runners := db.runners.map fun r =>
      if r.id = id then { r with status := status, last_seen := some now } else r }

/-- `queries.ts`: `updateRunnerHeartbeat`. -/
def updateRunnerHeartbeat (now : Nat) (id : Nat) (db : Db) : Db :=
  { db with runners := db.runners.map fun r =>
      if r.id = id then { r with last_seen := some now } else r }

/-- `queries.ts`: `incrementRunnerActiveJobs` —
`SET active_jobs = active_jobs + 1` (no upper guard at the store level). -/
def incrementRunnerActiveJobs (now : Nat) (id : Nat) (db : Db) : Db :=
  { db with runners := db.runners.map fun r =>
      if r.id = id then
        { r with active_jobs := r.active_jobs + 1, last_seen := some now }
      else r }

/-- `queries.ts`: `decrementRunnerActiveJobs` —
`SET active_jobs = CASE WHEN active_jobs > 0 THEN active_jobs - 1 ELSE 0 END`:
the decrement clamps at zero. -/
def decrementRunnerActiveJobs (now : Nat) (id : Nat) (db : Db) : Db :=
  { db with runners := db.runners.map fun r =>
      if r.id = id then
        { r with
            active_jobs := if r.active_jobs > 0 then r.active_jobs - 1 else 0,
            last_seen := some now }
      else r }

/-- `queries.ts`: `updatePipelineNextRun`. -/
def updatePipelineNextRun (id : Nat) (nextRunAt : Nat) (db : Db) : Db :=
  { db with pipelines := db.pipelines.map fun p =>
      if p.id = id then { p with next_run_at := some nextRunAt } else p }

/-- `SELECT * FROM pipelines WHERE next_run_at IS NOT NULL AND
next_run_at <= now` (`queries.ts`: `getPipelinesDueForRun`). -/
def getPipelinesDueForRun (now : Nat) (db : Db) : List Pipeline :=
  db.pipelines.filter fun p =>
    match p.next_run_at with
    | some t => t ≤ now
    | none => false

end Eifl

namespace Eifl

/-!
Crypto (`src/lib/crypto.ts`).  The source calls two external primitives:
`crypto.subtle` (PBKDF2 key derivation and AES-256-GCM) and Node's
`Buffer` base64 codec.  Base64 is implemented concretely below.  The
AES-GCM AEAD is modelled as what it is structurally: a CTR keystream XOR
over the plaintext followed by a 16-byte authentication tag, with a
concrete pseudorandom byte function standing in for the AES block cipher
(the round-trip and distinct-ciphertext properties depend only on this
structure, not on the AES tables).  PBKDF2 is likewise modelled by a
concrete digest of the key material.  Plaintexts cross this boundary as
their UTF-8 byte sequences (`TextEncoder`/`TextDecoder` are external to
the repository); bytes are `Nat` values below 256.
-/

/-- The 64 base64 digit characters. -/
def b64charTable : List Char :=
  "ABCDEFGHIJKLMNOPQRSTUVWXYZabcdefghijklmnopqrstuvwxyz0123456789+/".data

/-- Digit value to base64 character. -/
def b64char (d : Nat) : Char := b64charTable.getD d '='

/-- Base64 character back to its digit value; `'='` and any foreign
character yield `none`. -/
def b64val (c : Char) : Option Nat :=
  go b64charTable 0
where
  go : List Char → Nat → Option Nat
    | [], _ => none
    | x :: xs, i => if x = c then some i else go xs (i + 1)

/-- Encode a byte list into base64 characters (RFC 4648 with `=`
padding). -/
def b64chunks : List Nat → List Char
  | [] => []
  | [a] => [b64char (a / 4), b64char (a % 4 * 16), '=', '=']
  | [a, b] => [b64char (a / 4), b64char (a % 4 * 16 + b / 16),
               b64char (b % 16 * 4), '=']
  | a :: b :: c :: rest =>
      b64char (a / 4) :: b64char (a % 4 * 16 + b / 16) ::
      b64char (b % 16 * 4 + c / 64) :: b64char (c % 64) :: b64chunks rest

/-- `Buffer.toString("base64")`. -/
def b64encode (bytes : List Nat) : String := ⟨b64chunks bytes⟩

/-- Decode base64 characters back to bytes. -/
def b64dechunks : List Char → Option (List Nat)
  | [] => some []
  | [c1, c2, '=', '='] => do
      let d1 ← b64val c1
      let d2 ← b64val c2
      pure [d1 * 4 + d2 / 16]
  | [c1, c2, c3, '='] => do
      let d1 ← b64val c1
      let d2 ← b64val c2
      let d3 ← b64val c3
      pure [d1 * 4 + d2 / 16, d2 % 16 * 16 + d3 / 4]
  | c1 :: c2 :: c3 :: c4 :: rest => do
      let d1 ← b64val c1
      let d2 ← b64val c2
      let d3 ← b64val c3
      let d4 ← b64val c4
      let bytes ← b64dechunks rest
      pure ((d1 * 4 + d2 / 16) :: (d2 % 16 * 16 + d3 / 4) ::
            (d3 % 4 * 64 + d4) :: bytes)
  | _ => none

/-- `Buffer.from(s, "base64")`. -/
def b64decode (s : String) : Option (List Nat) := b64dechunks s.data

/-- Model of the AES-256 CTR keystream byte at position `i` under `key`
and `iv` (a concrete pseudorandom function standing in for AES). -/
def ksByte (key : Nat) (iv : List Nat) (i : Nat) : Nat :=
  (key + 131 * iv.foldl (fun a b => a * 256 + b) 0 + 7919 * i) % 256

/-- XOR the byte list with the keystream starting at position `i`. -/
def ctrXor (key : Nat) (iv : List Nat) : List Nat → Nat → List Nat
  | [], _ => []
  | b :: bs, i => (b ^^^ ksByte key iv i) :: ctrXor key iv bs (i + 1)

/-- Model of the 16-byte GCM authentication tag over the ciphertext. -/
def tagBytes (key : Nat) (iv ct : List Nat) : List Nat :=
  (List.range 16).map fun i =>
    ct.foldl (fun a b => (a * 31 + b) % 256) (ksByte key iv (i + 4294967296))

/-- AEAD seal: ciphertext body followed by the tag
(`crypto.subtle.encrypt` for AES-GCM). -/
def gcmSeal (key : Nat) (iv pt : List Nat) : List Nat :=
  let body := ctrXor key iv pt 0
  body ++ tagBytes key iv body

/-- AEAD open: verify the trailing tag, then undo the keystream
(`crypto.subtle.decrypt`; authentication failure rejects). -/
def gcmOpen (key : Nat) (iv ct : List Nat) : Option (List Nat) :=
  if ct.length < 16 then none
  else
    let body := ct.take (ct.length - 16)
    let tag := ct.drop (ct.length - 16)
    if tag = tagBytes key iv body then some (ctrXor key iv body 0) else none

/-- Model of the PBKDF2-HMAC-SHA-256 derivation: a concrete digest of the
key material (the derived key is deterministic in the key string). -/
def deriveKey (keyMaterial : String) : Nat :=
  keyMaterial.data.foldl (fun a c => a * 131 + c.toNat) 7

/-- `crypto.ts`: `getEncryptionKey` — requires `EIFL_ENCRYPTION_KEY` to be
present and at least 32 characters. -/
def getEncryptionKey (envKey : Option String) : Except String Nat :=
  match envKey with
  | none => .error "EIFL_ENCRYPTION_KEY environment variable is not set."
  | some k =>
    if k.length < 32 then
      .error "EIFL_ENCRYPTION_KEY must be at least 32 characters long."
    else .ok (deriveKey k)

/-- `crypto.ts`: `isEncryptionConfigured`. -/
def isEncryptionConfigured (envKey : Option String) : Bool := envKey.isSome

/-- `crypto.ts`: `EncryptedData` — base64 ciphertext and base64 IV. -/
structure EncryptedData where
  encrypted : String
  iv : String
  deriving DecidableEq, Repr

/-- `crypto.ts`: `encryptSecret`.  The source draws a fresh random 96-bit
(12-byte) IV per call from `crypto.getRandomValues`; the draw is passed in
here as the `iv` argument. -/
def encryptSecret (envKey : Option String) (iv : List Nat) (plaintext : List Nat) :
    Except String EncryptedData := do
  let key ← getEncryptionKey envKey
  .ok { encrypted := b64encode (gcmSeal key iv plaintext), iv := b64encode iv }

/-- `crypto.ts`: `decryptSecret` — any failure inside the AEAD open is
reported as the source's `EncryptionError`. -/
def decryptSecret (envKey : Option String) (encrypted iv : String) :
    Except String (List Nat) := do
  let key ← getEncryptionKey envKey
  let ct ←
    match b64decode encrypted with
    | some ct => .ok ct
    | none => .error "Failed to decrypt secret. The encryption key may have changed."
  let ivBytes ←
    match b64decode iv with
    | some b => .ok b
    | none => .error "Failed to decrypt secret. The encryption key may have changed."
  match gcmOpen key ivBytes ct with
  | some pt => .ok pt
  | none => .error "Failed to decrypt secret. The encryption key may have changed."

end Eifl

namespace Eifl

/-- One row of the baseline comparison (`queries.ts`:
`BaselineComparison`). -/
structure BaselineComparison where
  key : String
  currentValue : ℚ
  baselineValue : ℚ
  tolerancePct : ℚ
  deviationPct : ℚ
  withinTolerance : Bool
  deriving DecidableEq, Repr

/-- Ordering used by `ORDER BY m.key` / `ORDER BY name`. -/
def metricKeyLe (a b : Metric) : Prop := a.key ≤ b.key

instance : DecidableRel metricKeyLe := fun a b => inferInstanceAs (Decidable (a.key ≤ b.key))

instance : IsTotal Metric metricKeyLe := ⟨fun a b => le_total a.key b.key⟩

instance : IsTrans Metric metricKeyLe := ⟨fun _ _ _ => le_trans⟩

/-- JavaScript `Math.abs`, written executably (Mathlib's lattice `|q|`
does not evaluate inside the kernel). -/
def jsAbs (q : ℚ) : ℚ := if q < 0 then -q else q

theorem jsAbs_eq_abs (q : ℚ) : jsAbs q = |q| := by
  unfold jsAbs
  split
  · rename_i h
    exact (abs_of_neg h).symm
  · rename_i h
    exact (abs_of_nonneg (not_lt.mp h)).symm

/-- The comparison row built from one joined `(metric, baseline)` pair,
including the division-by-zero rule of the source: baseline `0` gives
deviation `0` when the current value is also `0` and `100` otherwise. -/
def mkComparison (m : Metric) (b : Baseline) : BaselineComparison :=
  let deviationPct : ℚ :=
    if b.baseline_value = 0 then (if m.value = 0 then 0 else 100)
    else jsAbs ((m.value - b.baseline_value) / b.baseline_value) * 100
  { key := m.key, currentValue := m.value, baselineValue := b.baseline_value,
    tolerancePct := b.tolerance_pct, deviationPct := deviationPct,
    withinTolerance := deviationPct ≤ b.tolerance_pct }

/-- `queries.ts`: `compareMetricsToBaselines` — joins the run's metrics
with the pipeline's baselines on the metric key (`JOIN baselines b ON
b.pipeline_id = ? AND b.key = m.key WHERE m.run_id = ? ORDER BY m.key`)
and maps each joined row through the deviation rule. -/
def compareMetricsToBaselines (db : Db) (runId : Nat) : List BaselineComparison :=
  match getRun db runId with
  | none => []
  | some run =>
    let runMetrics :=
      ((db.metrics.filter fun m => m.run_id = runId).insertionSort metricKeyLe)
    runMetrics.flatMap fun m =>
      (db.baselines.filter fun b =>
          b.pipeline_id = run.pipeline_id ∧ b.key = m.key).map
        fun b => mkComparison m b

/-- Ordering used for the secret `ORDER BY name` and the final
`localeCompare` sort (modelled as the codepoint order on names). -/
def secretNameLe (a b : Secret) : Prop := a.name ≤ b.name

instance : DecidableRel secretNameLe := fun a b => inferInstanceAs (Decidable (a.name ≤ b.name))

instance : IsTotal Secret secretNameLe := ⟨fun a b => le_total a.name b.name⟩

instance : IsTrans Secret secretNameLe := ⟨fun _ _ _ => le_trans⟩

/-- `queries.ts`: `getSecrets` — secrets of one scope, ordered by name. -/
def getSecrets (db : Db) (scope : String) (scopeId : Nat) : List Secret :=
  ((db.secrets.filter fun s => s.scope = scope ∧ s.scope_id = scopeId).insertionSort
    secretNameLe)

/-- `queries.ts`: `getSecretsForRepo` — project secrets first, repo
secrets override by name (the source's insertion-ordered `Map`), then the
result is sorted by name.  Because `(scope, scope_id, name)` is UNIQUE,
the map contents are the non-overridden project secrets plus all repo
secrets. -/
def getSecretsForRepo (db : Db) (repoId : Nat) : List Secret :=
  match getRepo db repoId with
  | none => []
  | some repo =>
    let projectSecrets := getSecrets db "project" repo.project_id
    let repoSecrets := getSecrets db "repo" repoId
    let merged :=
      (projectSecrets.filter fun p => ¬ repoSecrets.any fun r => r.name = p.name)
        ++ repoSecrets
    merged.insertionSort secretNameLe

/-- `src/api/runner.ts`: `runnerMatchesTags` — no required tags (absent or
empty) matches any runner, otherwise the runner must carry every required
tag. -/
def runnerMatchesTags (runnerTags : List String) (requiredTags : Option (List String)) : Bool :=
  match requiredTags with
  | none => true
  | some req =>
    if req.isEmpty then true
    else req.all fun tag => runnerTags.contains tag

/-- Environment the handlers read (`process.env` and the wall clock). -/
structure Env where
  now : Nat
  githubToken : Option String
  encryptionKey : Option String

/-- Job payload returned to a polling runner (`src/api/runner.ts`:
`JobPayload`); `pipelineConfig` is the raw stored manifest
(`JSON.parse(pipeline.config)`), and secret values are decrypted byte
sequences. -/
structure JobPayload where
  run : Run
  steps : List Step
  repoUrl : String
  commitSha : Option String
  branch : Option String
  pipelineConfig : RawConfig
  secrets : List (String × List Nat)

/-- One iteration of the candidate loop of `handlePollForJob` (lines
380–396): the run matches when its pipeline row exists, the raw
manifest's `runner_tags` are all carried by the runner, and the repo row
exists; otherwise the loop continues. -/
def pollStep (db : Db) (runnerTags : List String) (run : Run) :
    Option (Run × Pipeline × Repo) :=
  match getPipeline db run.pipeline_id with
  | none => none
  | some pipeline =>
    if runnerMatchesTags runnerTags pipeline.config.runner_tags then
      match getRepo db pipeline.repo_id with
      | none => none
      | some repo => some (run, pipeline, repo)
    else none

/-- The candidate loop of `handlePollForJob`: the first pending run, in
`created_at` order, accepted by `pollStep`. -/
def pollCandidate (db : Db) (runnerTags : List String) : Option (Run × Pipeline × Repo) :=
  (getPendingRuns db).findSome? (pollStep db runnerTags)

/-- Repo URL construction of `handlePollForJob` (lines 431–446): the
remote URL when present, otherwise the local `/git/<path>`; a configured
`GITHUB_TOKEN` is injected as `oauth2:<token>@` user-info into
`https://github.com/` URLs. -/
def buildRepoUrl (githubToken : Option String) (repo : Repo) : String :=
  let repoUrl := repo.remote_url.getD ("/git/" ++ repo.path)
  match githubToken with
  | some token =>
    if jsStartsWith repoUrl "https://github.com/" then
      "https://oauth2:" ++ token ++ "@github.com/" ++
        repoUrl.drop "https://github.com/".length
    else repoUrl
  | none => repoUrl

/-- Secret decryption loop of `handlePollForJob` (lines 448–459): decrypt
each merged secret, silently skipping any that fail to decrypt; no
secrets are attached when encryption is not configured. -/
def decryptSecretsForJob (env : Env) (rows : List Secret) : List (String × List Nat) :=
  if isEncryptionConfigured env.encryptionKey then
    rows.foldl
      (fun acc s =>
        match decryptSecret env.encryptionKey s.encrypted_value s.iv with
        | .ok v => acc ++ [(s.name, v)]
        | .error _ => acc)
      []
  else []

/-- `src/api/runner.ts`: `handlePollForJob`.  Refresh the heartbeat;
return no job at capacity; otherwise find the first matching pending run,
increment `active_jobs`, mark the runner `busy` iff the new count reaches
`max_concurrency` (else `online`), mark the run `running` (via the
unconditional `updateRunStatus`), and assemble the payload. -/
def handlePollForJob (env : Env) (runner : Runner) (db : Db) : Db × Option JobPayload :=
  let db := updateRunnerHeartbeat env.now runner.id db
  if runner.active_jobs ≥ runner.max_concurrency then (db, none)
  else
    match pollCandidate db runner.tags with
    | none => (db, none)
    | some (run, pipeline, repo) =>
      let db := incrementRunnerActiveJobs env.now runner.id db
      let newActiveJobs := runner.active_jobs + 1
      let db :=
        if newActiveJobs ≥ runner.max_concurrency then
          updateRunnerStatus env.now runner.id .busy db
        else
          updateRunnerStatus env.now runner.id .online db
      let db := updateRunStatus env.now run.id .running db
      let steps := getSteps db run.id
      let repoUrl := buildRepoUrl env.githubToken repo
      let secrets := decryptSecretsForJob env (getSecretsForRepo db repo.id)
      (db, some { run := run, steps := steps, repoUrl := repoUrl,
                  commitSha := run.commit_sha, branch := run.branch,
                  pipelineConfig := pipeline.config, secrets := secrets })

/-- One reported metric in the `runComplete` body. -/
structure MetricInput where
  key : String
  value : ℚ
  unit : Option String
  deriving DecidableEq, Repr

/-- `src/api/runner.ts`: `RunCompletePayload`. -/
structure RunCompletePayload where
  runId : Nat
  status : RunStatus
  metrics : Option (List MetricInput)
  deriving DecidableEq, Repr

/-- The `baselineCheck` object of the `runComplete` response. -/
structure BaselineCheck where
  checked : Nat
  regressions : Nat
  hasRegressions : Bool
  deriving DecidableEq, Repr

/-- `src/api/runner.ts`: `handleRunComplete`.  A falsy (zero) `runId` is
rejected (`none` models the 400 response).  Otherwise: set the run status
via the unconditional `updateRunStatus`, record the reported metrics,
compare them to the pipeline baselines, decrement the runner's
`active_jobs` (clamped at zero) and set the runner back to `online`; the
response carries `{checked, regressions, hasRegressions}`.  (The GitHub
commit-status call is a fire-and-forget external adapter with no store
effect.) -/
def handleRunComplete (env : Env) (runnerId : Nat) (body : RunCompletePayload)
    (db : Db) : Db × Option BaselineCheck :=
  if body.runId = 0 then (db, none)
  else
    let db := updateRunStatus env.now body.runId body.status db
    let db :=
      match body.metrics with
      | some ms => ms.foldl (fun d m => createMetric body.runId m.key m.value m.unit d) db
      | none => db
    let baselineComparisons := compareMetricsToBaselines db body.runId
    let regressions := baselineComparisons.filter fun c => ¬ c.withinTolerance
    let db := decrementRunnerActiveJobs env.now runnerId db
    let db := updateRunnerStatus env.now runnerId .online db
    (db, some { checked := baselineComparisons.length,
                regressions := regressions.length,
                hasRegressions := regressions.length > 0 })

/-- `src/api/pipelines.ts`: `handleCancelRun` — cancellation is accepted
only from `pending` or `running`; it goes through the same
`updateRunStatus`, which also stamps `finished_at`.  The `Bool` is the
success of the request. -/
def handleCancelRun (now : Nat) (id : Nat) (db : Db) : Db × Bool :=
  match getRun db id with
  | none => (db, false)
  | some run =>
    if run.status ≠ .pending ∧ run.status ≠ .running then (db, false)
    else (updateRunStatus now id .cancelled db, true)

end Eifl

namespace Eifl

/-!
Scheduler (`src/pipeline/cron.ts`) and push trigger
(`src/pipeline/trigger.ts`).  `getNextRun` delegates to the external
`cron-parser` package and `getLatestCommitSha` shells out to git; both are
oracles here: `cronNext cron` is the next firing instant (`none` models
the `InvalidCronError` the source catches per schedule entry), `gitHead
path branch` is the resolved commit SHA.
-/

/-- Oracle environment of the scheduler tick and the push trigger. -/
structure CronEnv where
  now : Nat
  cronNext : String → Option Nat
  gitHead : String → String → Option String

/-- The `nextRun` minimisation loop shared by `cron.ts` (lines 50–60) and
`trigger.ts` (lines 54–66): fold over the schedule entries, keeping the
earliest valid firing and skipping entries whose cron fails to parse. -/
def earliestNextRun (cronNext : String → Option Nat) (schedules : List RawSchedule) :
    Option Nat :=
  schedules.foldl
    (fun acc s =>
      match cronNext s.cron with
      | some next =>
        match acc with
        | none => some next
        | some cur => if next < cur then some next else some cur
      | none => acc)
    none

/-- One iteration of the `processScheduledPipelines` loop (`cron.ts`
lines 39–102): parse the stored manifest (skip on error), read
`config.triggers?.schedule` from the **validated** config (skip when
absent or empty), advance `next_run_at` **before** creating the run, then
resolve the repo and its head commit, skip when the pipeline already has a
pending or running run, and finally insert the run and its steps. -/
def processScheduledPipeline (env : CronEnv) (db : Db) (pipeline : Pipeline) : Db :=
  match validatePipelineConfig pipeline.config with
  | .error _ => db
  | .ok config =>
    match config.triggers.bind (·.schedule) with
    | none => db
    | some schedules =>
      if schedules.isEmpty then db
      else
        match earliestNextRun env.cronNext schedules with
        | none => db
        | some nextRun =>
          let db := updatePipelineNextRun pipeline.id nextRun db
          match getRepo db pipeline.repo_id with
          | none => db
          | some repo =>
            match env.gitHead repo.path repo.default_branch with
            | none => db
            | some commitSha =>
              if hasPendingOrRunningRun db pipeline.id then db
              else
                let (run, db) :=
                  createRun env.now pipeline.id (some commitSha)
                    (some repo.default_branch) (some "schedule") db
                config.steps.foldl (fun d st => createStep run.id st.name st.run d) db

/-- `cron.ts`: `processScheduledPipelines` — one scheduler tick: fetch the
due pipelines once, then process each in turn. -/
def processScheduledPipelines (env : CronEnv) (db : Db) : Db :=
  (getPipelinesDueForRun env.now db).foldl (processScheduledPipeline env) db

/-- `SELECT * FROM repos WHERE path = ?` (`queries.ts`: `getRepoByPath`). -/
def getRepoByPath (db : Db) (path : String) : Option Repo :=
  db.repos.find? fun r => r.path = path

/-- `queries.ts`: `upsertPipeline` — `ON CONFLICT(repo_id, name) DO UPDATE
SET config = excluded.config, next_run_at = excluded.next_run_at`. -/
def upsertPipeline (repoId : Nat) (name : String) (config : RawConfig)
    (nextRunAt : Option Nat) (db : Db) : Pipeline × Db :=
  match db.pipelines.find? fun p => p.repo_id = repoId ∧ p.name = name with
  | some p =>
    let p' : Pipeline := { p with config := config, next_run_at := nextRunAt }
    (p', { db with pipelines := db.pipelines.map fun q => if q.id = p.id then p' else q })
  | none =>
    let p : Pipeline :=
      { id := db.nextPipelineId, repo_id := repoId, name := name,
        config := config, next_run_at := nextRunAt }
    (p, { db with pipelines := db.pipelines ++ [p],
                  nextPipelineId := db.nextPipelineId + 1 })

/-- One record of the receive-pack push event. -/
structure PushInfo where
  oldrev : String
  newrev : String
  refname : String
  deriving DecidableEq, Repr

/-- The branch extraction of `trigger.ts` (regex `^refs\/heads\/(.+)$`). -/
def branchOfRefname (refname : String) : Option String :=
  if jsStartsWith refname "refs/heads/" ∧ refname.drop 11 ≠ "" then
    some (refname.drop 11)
  else none

/-- The `next_run_at` computation of `handlePushTrigger` (`trigger.ts`
lines 53–66): it reads `config.triggers?.schedule` from the **validated**
config, so the upserted `next_run_at` comes out of this expression. -/
def pushTriggerNextRunAt (cronNext : String → Option Nat) (config : PipelineConfig) :
    Option Nat :=
  match config.triggers.bind (·.schedule) with
  | none => none
  | some schedules =>
    if schedules.isEmpty then none
    else earliestNextRun cronNext schedules

/-- One iteration of the `handlePushTrigger` loop (`trigger.ts` lines
17–82): skip deletes and non-branch refs, read `.eifl.json` at the pushed
commit (oracle `readConfig`), validate it, check `shouldTriggerOnPush`,
upsert the pipeline (storing the **raw** manifest and the computed
`next_run_at`), and insert the push-triggered run and its steps. -/
def handlePushRecord (env : CronEnv) (readConfig : String → Option RawConfig)
    (repo : Repo) (db : Db) (push : PushInfo) : Db :=
  if push.newrev = "0000000000000000000000000000000000000000" then db
  else
    match branchOfRefname push.refname with
    | none => db
    | some branch =>
      match readConfig push.newrev with
      | none => db
      | some configJson =>
        match validatePipelineConfig configJson with
        | .error _ => db
        | .ok config =>
          if ¬ shouldTriggerOnPush config branch then db
          else
            let nextRunAt := pushTriggerNextRunAt env.cronNext config
            let (pipeline, db) :=
              upsertPipeline repo.id config.name configJson nextRunAt db
            let (run, db) :=
              createRun env.now pipeline.id (some push.newrev) (some branch)
                (some "push") db
            config.steps.foldl (fun d st => createStep run.id st.name st.run d) db

/-- `trigger.ts`: `handlePushTrigger` over a list of push records. -/
def handlePushTrigger (env : CronEnv) (readConfig : String → Option RawConfig)
    (repoPath : String) (pushInfo : List PushInfo) (db : Db) : Db :=
  match getRepoByPath db repoPath with
  | none => db
  | some repo => pushInfo.foldl (handlePushRecord env readConfig repo) db

end Eifl

namespace Eifl

/-!
Runner executor (`runner/executor.ts`).  `evaluateCondition` matches the
two anchored regexes `^\s*(\w+)\s*==\s*'([^']+)'\s*$` and
`^\s*(\w+)\s*!=\s*'([^']+)'\s*$` in order; the parser below implements
exactly that language (maximal munch coincides with the regex semantics
here because a shortened `\w+` or `[^']+` group is always followed by a
character the next regex token rejects).  `\w` is ASCII
`[A-Za-z0-9_]`; `\s` is modelled by `Char.isWhitespace`.
-/

/-- Regex class `\w`. -/
def isWordChar (c : Char) : Bool := c.isAlphanum || c = '_'

/-- Regex class `\s`. -/
def isWsChar (c : Char) : Bool := c.isWhitespace

/-- Parse the tail of a condition after the operator: `\s*'([^']+)'\s*$`,
returning the literal. -/
def parseCondLit (l : List Char) : Option String :=
  match l.dropWhile isWsChar with
  | [] => none
  | c :: l1 =>
    if c = '\'' then
      let litChars := l1.takeWhile fun x => x ≠ '\''
      if litChars.isEmpty then none
      else
        match l1.dropWhile fun x => x ≠ '\'' with
        | [] => none
        | d :: l2 =>
          if d = '\'' then
            if (l2.dropWhile isWsChar).isEmpty then some ⟨litChars⟩ else none
          else none
    else none

/-- Parse a full condition into `(variable, isEquality, literal)`;
`none` when neither regex matches. -/
def parseCond (l : List Char) : Option (String × Bool × String) :=
  let l1 := l.dropWhile isWsChar
  let varChars := l1.takeWhile isWordChar
  if varChars.isEmpty then none
  else
    match (l1.dropWhile isWordChar).dropWhile isWsChar with
    | a :: b :: l2 =>
      if a = '=' ∧ b = '=' then
        (parseCondLit l2).map fun lit => (⟨varChars⟩, true, lit)
      else if a = '!' ∧ b = '=' then
        (parseCondLit l2).map fun lit => (⟨varChars⟩, false, lit)
      else none
    | _ => none

/-- `executor.ts`: `evaluateCondition` — the equality form returns
`context[var] === literal`, the inequality form `context[var] !== literal`
(an absent context variable is `undefined`, i.e. `none`); any string that
matches neither regex evaluates to `false`. -/
def evaluateCondition (condition : String) (context : String → Option String) : Bool :=
  match parseCond condition.data with
  | some (v, true, lit) => context v == some lit
  | some (v, false, lit) => !(context v == some lit)
  | none => false

/-- The evaluation context built by `executeJob` (lines 142–145):
`trigger` is the run's `triggered_by` (default `'unknown'`), `branch` the
job's branch (default `''`); any other variable is `undefined`. -/
def jobContext (triggeredBy : Option String) (branch : Option String) :
    String → Option String := fun v =>
  if v = "trigger" then some (triggeredBy.getD "unknown")
  else if v = "branch" then some (branch.getD "")
  else none

/-- The step loop of `executeJob` (lines 147–214), observed through the
status callbacks it issues: a step whose `if` condition evaluates to
`false` is passed over with `continue` — **no callback is issued for it**
— while an executed step reports `running` (via `onStepStart`) and then
`success`/`failed` (via `onStepComplete`, `reportStepUpdate` in
`runner/main.ts`); a non-zero exit breaks the loop, so later steps report
nothing.  `exec` is the shell oracle giving each command's exit code. -/
def executeJobUpdates (exec : String → Int) (ctx : String → Option String) :
    List Step → List PipelineStep → List (Nat × StepStatus)
  | [], _ => []
  | step :: rest, cfgSteps =>
    let configStep := cfgSteps.head?
    let skip :=
      match configStep.bind (·.ifCond) with
      | some cond => !evaluateCondition cond ctx
      | none => false
    if skip then executeJobUpdates exec ctx rest cfgSteps.tail
    else
      let exitCode := exec step.command
      (step.id, StepStatus.running) ::
        (step.id, if exitCode = 0 then StepStatus.success else StepStatus.failed) ::
        (if exitCode = 0 then executeJobUpdates exec ctx rest cfgSteps.tail else [])

/-- The status a `steps` row ends with on the server after the callbacks
of one `executeJob` have been applied: the last reported status for its
id, or its stored status (`pending` at dispatch) when nothing was
reported. -/
def finalStepStatus (updates : List (Nat × StepStatus)) (step : Step) : StepStatus :=
  ((updates.filterMap fun u => if u.1 = step.id then some u.2 else none).getLast?).getD
    step.status

end Eifl

namespace Eifl

/-! Helper lemmas shared by several claims. -/

/-- Every successfully validated config carries exactly the triggers
produced by `validateTriggers`. -/
theorem validate_ok_triggers {c : RawConfig} {cfg : PipelineConfig}
    (h : validatePipelineConfig c = .ok cfg) :
    cfg.triggers = validateTriggers c.triggers := by
  unfold validatePipelineConfig at h
  split at h
  · exact absurd h (by simp)
  · split at h
    · exact absurd h (by simp)
    · split at h
      · exact absurd h (by simp)
      · split at h
        · exact absurd h (by simp)
        · split at h
          · exact absurd h (by simp)
          · simp only [Except.ok.injEq] at h
            rw [← h]

/-- A validated config never carries a schedule. -/
theorem validate_schedule_none {c : RawConfig} {cfg : PipelineConfig}
    (h : validatePipelineConfig c = .ok cfg) :
    cfg.triggers.bind (·.schedule) = none := by
  rw [validate_ok_triggers h]
  cases c.triggers <;> rfl

theorem createRun_pipelines (now pid : Nat) (sha br tb : Option String) (db : Db) :
    (createRun now pid sha br tb db).2.pipelines = db.pipelines := rfl

theorem createStep_pipelines (rid : Nat) (n c : String) (db : Db) :
    (createStep rid n c db).pipelines = db.pipelines := rfl

theorem foldl_createStep_pipelines (rid : Nat) (l : List PipelineStep) (db : Db) :
    (l.foldl (fun d st => createStep rid st.name st.run d) db).pipelines = db.pipelines := by
  induction l generalizing db with
  | nil => rfl
  | cons st rest ih => simpa using ih (createStep rid st.name st.run db)

/-- Doc for Claim C10: for every input accepted by `validatePipelineConfig`
the returned config's triggers contain at most `push` and `manual`: any
`triggers.schedule` entries of the raw manifest are silently dropped (not
rejected, not preserved), so `config.triggers?.schedule` is always
`undefined` after parsing; consequently the push-trigger path computes
`nextRunAt = undefined` and every pipeline row it upserts (updated or
inserted) has `next_run_at = null`. -/
theorem validatePipelineConfig_drops_schedule
    (c : RawConfig) (cfg : PipelineConfig) (cronNext : String → Option Nat)
    (h : validatePipelineConfig c = .ok cfg) :
    (cfg.triggers = none ∨ ∃ t, cfg.triggers = some t ∧ t.schedule = none) ∧
    pushTriggerNextRunAt cronNext cfg = none ∧
    (∀ (env : CronEnv) (readConfig : String → Option RawConfig) (repo : Repo)
       (db : Db) (push : PushInfo) (p : Pipeline),
       p ∈ (handlePushRecord env readConfig repo db push).pipelines →
       p ∈ db.pipelines ∨ p.next_run_at = none) := by
  have hsched := validate_schedule_none h
  refine ⟨?_, ?_, ?_⟩
  · rw [validate_ok_triggers h]
    cases c.triggers with
    | none => exact .inl rfl
    | some t => exact .inr ⟨_, rfl, rfl⟩
  · unfold pushTriggerNextRunAt
    rw [hsched]
  · intro env readConfig repo db push p hp
    unfold handlePushRecord at hp
    split at hp
    · exact .inl hp
    · split at hp
      · exact .inl hp
      · split at hp
        · exact .inl hp
        · rename_i configJson _ branch' _
          split at hp
          · exact .inl hp
          · rename_i config hok
            split at hp
            · exact .inl hp
            · -- the upsert/run/step path; `next_run_at` of the upserted row
              -- is `pushTriggerNextRunAt`, which is `none` for a validated
              -- config
              have hnone : pushTriggerNextRunAt env.cronNext config = none := by
                unfold pushTriggerNextRunAt
                rw [validate_schedule_none hok]
              rw [foldl_createStep_pipelines] at hp
              rw [createRun_pipelines] at hp
              unfold upsertPipeline at hp
              split at hp
              · rename_i p0 _
                simp only [List.mem_map] at hp
                obtain ⟨q, hq, hqe⟩ := hp
                by_cases hid : q.id = p0.id
                · right
                  rw [← hqe]
                  simp [hid, hnone]
                · left
                  rw [← hqe]
                  simpa [hid] using hq
              · simp only [List.mem_append, List.mem_singleton] at hp
                cases hp with
                | inl hin => exact .inl hin
                | inr hnew => exact .inr (by rw [hnew, hnone])

end Eifl

namespace Eifl

/-- A manifest that declares push, manual and schedule triggers (the
shape of the spec's §6 example). -/
def c10Raw : RawConfig :=
  { name := some "build",
    triggers := some
      { push := some { branches := some ["main"] },
        manual := some true,
        schedule := some [⟨"0 * * * *"⟩] },
    runner_tags := none,
    steps := some [{ name := some "test", run := some "make test",
                     capture_sizes := none, ifCond := none }] }

/-- What `validatePipelineConfig` returns for `c10Raw`: the schedule is
gone. -/
def c10Cfg : PipelineConfig :=
  { name := "build",
    triggers := some
      { push := some { branches := some ["main"] },
        manual := some true,
        schedule := none },
    runner_tags := none,
    steps := [{ name := "test", run := "make test",
                capture_sizes := none, ifCond := none }] }

/-- Witness for Claim C10: the concrete manifest with a cron schedule
parses successfully, and the push-trigger path computes a null
`next_run_at` for it. -/
theorem validatePipelineConfig_drops_schedule_witness :
    validatePipelineConfig c10Raw = .ok c10Cfg ∧
    pushTriggerNextRunAt (fun _ => some 0) c10Cfg = none :=
  ⟨by rfl,
   (validatePipelineConfig_drops_schedule c10Raw c10Cfg (fun _ => some 0)
      (by rfl)).2.1⟩

/-- The stored manifest of the repository's own scheduler test
(`tests/test_schedule.test.ts`): a cron schedule firing every minute. -/
def schedTestConfig : RawConfig :=
  { name := some "Test Pipeline",
    triggers := some { push := none, manual := none,
                       schedule := some [⟨"* * * * *"⟩] },
    runner_tags := none,
    steps := some [{ name := some "Test Step", run := some "echo Hello",
                     capture_sizes := none, ifCond := none }] }

/-- The scheduler-test database: one pipeline whose `next_run_at` (instant
`0`) is 10 minutes in the past of `now = 600`. -/
def schedTestDb : Db :=
  { pipelines := [{ id := 1, repo_id := 1, name := "Test Pipeline",
                    config := schedTestConfig, next_run_at := some 0 }],
    repos := [{ id := 1, project_id := 1, name := "test-repo",
                path := "test-project/test-repo.git", remote_url := none,
                default_branch := "main" }],
    runs := [], steps := [], metrics := [], baselines := [], runners := [],
    secrets := [], nextPipelineId := 2, nextRunId := 1, nextStepId := 1,
    nextMetricId := 1 }

/-- Oracles for the scheduler test: the every-minute cron parses (next
firing at `660`) and the repo head resolves. -/
def schedTestEnv : CronEnv :=
  { now := 600,
    cronNext := fun c => if c = "* * * * *" then some 660 else none,
    gitHead := fun _ _ => some "f00dfeed" }

/-- Doc for Claim C2 (code bug): the scheduler tick parses the stored
manifest with `validatePipelineConfig`, which drops `triggers.schedule`,
so the tick's schedule branch is unreachable: a tick changes nothing at
all — in particular, for the due pipeline of the repository's own
scheduler test, two immediate ticks create zero runs with
`triggered_by='schedule'` (the claim, the spec scenario §8.1 and the
repo's `tests/test_schedule.test.ts` all require exactly one) and
`next_run_at` never advances. -/
theorem scheduler_tick_never_creates_runs :
    (∀ (env : CronEnv) (db : Db), processScheduledPipelines env db = db) ∧
    ((processScheduledPipelines schedTestEnv
        (processScheduledPipelines schedTestEnv schedTestDb)).runs.filter
          fun r => r.triggered_by = some "schedule").length = 0 ∧
    (processScheduledPipelines schedTestEnv
        (processScheduledPipelines schedTestEnv schedTestDb)).pipelines.map
          (·.next_run_at) = [some 0] := by
  have hstep : ∀ (env : CronEnv) (db : Db) (p : Pipeline),
      processScheduledPipeline env db p = db := by
    intro env db p
    unfold processScheduledPipeline
    cases hv : validatePipelineConfig p.config with
    | error e => simp
    | ok cfg =>
      have h2 := validate_schedule_none hv
      simp [h2]
  have hid : ∀ (env : CronEnv) (db : Db), processScheduledPipelines env db = db := by
    intro env db
    unfold processScheduledPipelines
    generalize getPipelinesDueForRun env.now db = l
    induction l generalizing db with
    | nil => rfl
    | cons p rest ih => rw [List.foldl_cons, hstep]; exact ih db
  refine ⟨hid, ?_, ?_⟩
  · rw [hid, hid]; decide
  · rw [hid, hid]; decide

end Eifl

namespace Eifl

/-- Doc for Claim C6: `shouldTriggerOnPush` is true when `triggers` is
absent; false when `triggers` is present but `triggers.push` is absent;
true when `branches` is absent or empty; and otherwise true iff some
listed pattern matches, where `*` matches every branch, a pattern ending
in `*` matches by prefix, a pattern starting in `*` (and not ending in
`*`) matches by suffix, and any other pattern matches only by literal
equality. -/
theorem shouldTriggerOnPush_spec (cfg : PipelineConfig) (branch : String) :
    (cfg.triggers = none → shouldTriggerOnPush cfg branch = true) ∧
    (∀ t, cfg.triggers = some t → t.push = none →
      shouldTriggerOnPush cfg branch = false) ∧
    (∀ t p, cfg.triggers = some t → t.push = some p →
      (p.branches = none ∨ p.branches = some []) →
      shouldTriggerOnPush cfg branch = true) ∧
    (∀ t p l, cfg.triggers = some t → t.push = some p → p.branches = some l →
      l ≠ [] →
      (shouldTriggerOnPush cfg branch = true ↔
        ∃ pat ∈ l, matchBranch pat branch = true)) ∧
    (matchBranch "*" branch = true) ∧
    (∀ pat, jsEndsWith pat "*" = true →
      matchBranch pat branch = jsStartsWith branch (pat.dropRight 1)) ∧
    (∀ pat, jsEndsWith pat "*" = false → jsStartsWith pat "*" = true →
      matchBranch pat branch = jsEndsWith branch (pat.drop 1)) ∧
    (∀ pat, jsEndsWith pat "*" = false → jsStartsWith pat "*" = false →
      (matchBranch pat branch = true ↔ pat = branch)) := by
  refine ⟨?_, ?_, ?_, ?_, ?_, ?_, ?_, ?_⟩
  · intro h; simp [shouldTriggerOnPush, h]
  · intro t ht hp; simp [shouldTriggerOnPush, ht, hp]
  · intro t p ht hp hb
    cases hb with
    | inl h => simp [shouldTriggerOnPush, ht, hp, h]
    | inr h => simp [shouldTriggerOnPush, ht, hp, h]
  · intro t p l ht hp hb hne
    simp [shouldTriggerOnPush, ht, hp, hb, hne, List.any_eq_true]
  · simp [matchBranch]
  · intro pat h
    by_cases hstar : pat = "*"
    · subst hstar
      simp only [matchBranch, jsStartsWith]
      have h0 : ("*".dropRight 1).data = [] := rfl
      rw [h0, if_pos trivial]
      cases branch.data <;> rfl
    · simp [matchBranch, hstar, h]
  · intro pat h1 h2
    have hstar : pat ≠ "*" := by
      rintro rfl
      rw [show jsEndsWith "*" "*" = true from by decide] at h1
      exact Bool.noConfusion h1
    simp [matchBranch, hstar, h1, h2]
  · intro pat h1 h2
    have hstar : pat ≠ "*" := by
      rintro rfl
      rw [show jsEndsWith "*" "*" = true from by decide] at h1
      exact Bool.noConfusion h1
    simp [matchBranch, hstar, h1, h2]

/-- A config whose push trigger filters on the given branch patterns. -/
def c6Cfg (branches : List String) : PipelineConfig :=
  { name := "p",
    triggers := some { push := some { branches := some branches },
                       manual := none, schedule := none },
    runner_tags := none,
    steps := [] }

/-- Witness for Claim C6: `main` matches under `["main"]`, `release-1.0`
matches under `["release-*"]`, `develop` does not. -/
theorem shouldTriggerOnPush_spec_witness :
    shouldTriggerOnPush (c6Cfg ["main"]) "main" = true ∧
    shouldTriggerOnPush (c6Cfg ["release-*"]) "release-1.0" = true ∧
    shouldTriggerOnPush (c6Cfg ["release-*"]) "develop" = false := by
  refine ⟨?_, ?_, ?_⟩
  · exact ((shouldTriggerOnPush_spec (c6Cfg ["main"]) "main").2.2.2.1 _ _ _
      rfl rfl rfl (by decide)).mpr ⟨"main", by decide, by decide⟩
  · exact ((shouldTriggerOnPush_spec (c6Cfg ["release-*"]) "release-1.0").2.2.2.1 _ _ _
      rfl rfl rfl (by decide)).mpr ⟨"release-*", by decide, by decide⟩
  · have h := (shouldTriggerOnPush_spec (c6Cfg ["release-*"]) "develop").2.2.2.1 _ _ _
      rfl rfl rfl (by decide)
    cases hb : shouldTriggerOnPush (c6Cfg ["release-*"]) "develop" with
    | false => rfl
    | true =>
      obtain ⟨pat, hm, hmb⟩ := h.mp hb
      rw [List.mem_singleton] at hm
      subst hm
      exact absurd hmb (by decide)

end Eifl

namespace Eifl

/-- A pending run is eligible for a runner when its pipeline row exists,
the manifest's `runner_tags` are a subset of the runner's tags, and the
repo row exists — the acceptance condition of the candidate loop. -/
def eligibleForRunner (db : Db) (runnerTags : List String) (run : Run) : Prop :=
  ∃ pipeline repo, getPipeline db run.pipeline_id = some pipeline ∧
    runnerMatchesTags runnerTags pipeline.config.runner_tags = true ∧
    getRepo db pipeline.repo_id = some repo

theorem pollStep_eq_none_iff {db : Db} {tags : List String} {run : Run} :
    pollStep db tags run = none ↔ ¬ eligibleForRunner db tags run := by
  unfold pollStep eligibleForRunner
  cases hp : getPipeline db run.pipeline_id with
  | none => simp [hp]
  | some pipeline =>
    by_cases ht : runnerMatchesTags tags pipeline.config.runner_tags = true
    · cases hr : getRepo db pipeline.repo_id <;> simp [hp, ht, hr]
    · simp [hp, ht]

theorem pollStep_eq_some {db : Db} {tags : List String} {run r : Run}
    {p : Pipeline} {rep : Repo} (h : pollStep db tags run = some (r, p, rep)) :
    r = run ∧ getPipeline db run.pipeline_id = some p ∧
    runnerMatchesTags tags p.config.runner_tags = true ∧
    getRepo db p.repo_id = some rep := by
  unfold pollStep at h
  cases hp : getPipeline db run.pipeline_id with
  | none => rw [hp] at h; exact absurd h (by simp)
  | some pipeline =>
    rw [hp] at h
    have h' : (if runnerMatchesTags tags pipeline.config.runner_tags = true then
        match getRepo db pipeline.repo_id with
        | none => none
        | some repo => some (run, pipeline, repo)
      else none) = some (r, p, rep) := h
    by_cases ht : runnerMatchesTags tags pipeline.config.runner_tags = true
    · rw [if_pos ht] at h'
      cases hr : getRepo db pipeline.repo_id with
      | none => rw [hr] at h'; exact absurd h' (by simp)
      | some repo =>
        rw [hr] at h'
        simp only [Option.some.injEq, Prod.mk.injEq] at h'
        obtain ⟨h1, h2, h3⟩ := h'
        subst h1 h2 h3
        exact ⟨rfl, rfl, ht, hr⟩
    · rw [if_neg ht] at h'
      exact absurd h' (by simp)

theorem findSome?_pollStep_some {db : Db} {tags : List String} {l : List Run}
    (hs : l.Sorted runCreatedLe) {r : Run} {p : Pipeline} {rep : Repo}
    (h : l.findSome? (pollStep db tags) = some (r, p, rep)) :
    r ∈ l ∧ eligibleForRunner db tags r ∧
    ∀ x ∈ l, eligibleForRunner db tags x → r.created_at ≤ x.created_at := by
  induction l with
  | nil => simp at h
  | cons a l ih =>
    rw [List.findSome?_cons] at h
    rw [List.sorted_cons] at hs
    cases hfa : pollStep db tags a with
    | some b =>
      rw [hfa] at h
      simp only [Option.some.injEq] at h
      subst h
      obtain ⟨hra, hp, ht, hr⟩ := pollStep_eq_some hfa
      subst hra
      refine ⟨List.mem_cons_self _ _, ⟨p, rep, hp, ht, hr⟩, ?_⟩
      intro x hx _
      rcases List.mem_cons.mp hx with hxa | hxl
      · rw [hxa]
      · exact hs.1 x hxl
    | none =>
      rw [hfa] at h
      obtain ⟨hmem, hel, hmin⟩ := ih hs.2 h
      refine ⟨List.mem_cons_of_mem _ hmem, hel, ?_⟩
      intro x hx hxel
      rcases List.mem_cons.mp hx with hxa | hxl
      · subst hxa
        exact absurd hxel (pollStep_eq_none_iff.mp hfa)
      · exact hmin x hxl hxel

theorem findSome?_pollStep_none {db : Db} {tags : List String} {l : List Run}
    (h : ∀ x ∈ l, ¬ eligibleForRunner db tags x) :
    l.findSome? (pollStep db tags) = none := by
  induction l with
  | nil => rfl
  | cons a l ih =>
    rw [List.findSome?_cons]
    have hfa : pollStep db tags a = none :=
      pollStep_eq_none_iff.mpr (h a (List.mem_cons_self _ _))
    rw [hfa]
    exact ih fun x hx => h x (List.mem_cons_of_mem _ hx)

theorem getPendingRuns_sorted (db : Db) : (getPendingRuns db).Sorted runCreatedLe :=
  List.sorted_insertionSort _ _

theorem pollCandidate_heartbeat (now id : Nat) (db : Db) (tags : List String) :
    pollCandidate (updateRunnerHeartbeat now id db) tags = pollCandidate db tags := rfl

theorem getPendingRuns_heartbeat (now id : Nat) (db : Db) :
    getPendingRuns (updateRunnerHeartbeat now id db) = getPendingRuns db := rfl

theorem eligible_heartbeat (now id : Nat) (db : Db) (tags : List String) (run : Run) :
    eligibleForRunner (updateRunnerHeartbeat now id db) tags run ↔
    eligibleForRunner db tags run := Iff.rfl

end Eifl

namespace Eifl

/-- Doc for Claim C7: on a poll the dispatcher walks the pending runs in
ascending `created_at` order and assigns the first run whose pipeline's
required tag set `T` satisfies `T ⊆ R` for the runner's tag set `R`
(absent or empty `T` matches any runner); a runner missing a required tag
never receives such a run. -/
theorem handlePollForJob_tagDispatch (env : Env) (runner : Runner) (db : Db) :
    (∀ (R : List String) (T : Option (List String)),
      runnerMatchesTags R T = true ↔ ∀ tag ∈ T.getD [], tag ∈ R) ∧
    (∀ job, (handlePollForJob env runner db).2 = some job →
      job.run ∈ getPendingRuns db ∧ eligibleForRunner db runner.tags job.run ∧
      ∀ r ∈ getPendingRuns db, eligibleForRunner db runner.tags r →
        job.run.created_at ≤ r.created_at) ∧
    ((∀ r ∈ getPendingRuns db, ¬ eligibleForRunner db runner.tags r) →
      (handlePollForJob env runner db).2 = none) := by
  refine ⟨?_, ?_, ?_⟩
  · intro R T
    cases T with
    | none => simp [runnerMatchesTags]
    | some req =>
      by_cases hreq : req.isEmpty
      · rw [List.isEmpty_iff] at hreq
        subst hreq
        simp [runnerMatchesTags]
      · simp only [runnerMatchesTags, if_neg hreq, List.all_eq_true,
          Option.getD_some]
        constructor
        · intro h tag htag
          have := h tag htag
          exact List.mem_of_elem_eq_true this
        · intro h tag htag
          exact List.elem_eq_true_of_mem (h tag htag)
  · intro job h
    simp only [handlePollForJob] at h
    by_cases hc : runner.active_jobs ≥ runner.max_concurrency
    · rw [if_pos hc] at h
      exact absurd h (by simp)
    · rw [if_neg hc] at h
      rw [pollCandidate_heartbeat] at h
      cases hcand : pollCandidate db runner.tags with
      | none => rw [hcand] at h; exact absurd h (by simp)
      | some triple =>
        obtain ⟨run0, p0, rep0⟩ := triple
        rw [hcand] at h
        simp only [Option.some.injEq] at h
        have hjr : job.run = run0 := by rw [← h]
        unfold pollCandidate at hcand
        obtain ⟨hmem, hel, hmin⟩ :=
          findSome?_pollStep_some (getPendingRuns_sorted db) hcand
        rw [hjr]
        exact ⟨hmem, hel, hmin⟩
  · intro hnone
    simp only [handlePollForJob]
    by_cases hc : runner.active_jobs ≥ runner.max_concurrency
    · rw [if_pos hc]
    · rw [if_neg hc]
      rw [pollCandidate_heartbeat]
      unfold pollCandidate
      rw [findSome?_pollStep_none hnone]

end Eifl

namespace Eifl

/-- Runner A of the tag-dispatch scenario: tags `{linux}`. -/
def runnerA : Runner :=
  { id := 1, name := "A", token := "tokA", status := .online,
    tags := ["linux"], max_concurrency := 1, active_jobs := 0,
    last_seen := none }

/-- Runner B of the tag-dispatch scenario: tags `{linux, perf}`. -/
def runnerB : Runner :=
  { id := 2, name := "B", token := "tokB", status := .online,
    tags := ["linux", "perf"], max_concurrency := 1, active_jobs := 0,
    last_seen := none }

/-- Database of the tag-dispatch scenario: one pending run of a pipeline
whose manifest requires `runner_tags = ["linux","perf"]`. -/
def c7Db : Db :=
  { pipelines := [{ id := 1, repo_id := 1, name := "perf-pipeline",
                    config := { name := some "perf-pipeline", triggers := none,
                                runner_tags := some ["linux", "perf"],
                                steps := some [{ name := some "bench",
                                                 run := some "make bench",
                                                 capture_sizes := none,
                                                 ifCond := none }] },
                    next_run_at := none }],
    repos := [{ id := 1, project_id := 1, name := "r", path := "p/r.git",
                remote_url := none, default_branch := "main" }],
    runs := [{ id := 1, pipeline_id := 1, status := .pending,
               commit_sha := some "abc", branch := some "main",
               triggered_by := some "push", started_at := none,
               finished_at := none, created_at := 5 }],
    steps := [], metrics := [], baselines := [],
    runners := [runnerA, runnerB], secrets := [],
    nextPipelineId := 2, nextRunId := 2, nextStepId := 1, nextMetricId := 1 }

/-- Environment for the tag-dispatch scenario. -/
def c7Env : Env := { now := 100, githubToken := none, encryptionKey := none }

/-- Witness for Claim C7: runner A (missing `perf`) never receives the
job; runner B receives a job whose run is the pending run, eligible for
B's tags. -/
theorem handlePollForJob_tagDispatch_witness :
    (handlePollForJob c7Env runnerA c7Db).2 = none ∧
    (∃ job, (handlePollForJob c7Env runnerB c7Db).2 = some job ∧
      job.run ∈ getPendingRuns c7Db ∧
      eligibleForRunner c7Db runnerB.tags job.run) := by
  constructor
  · refine (handlePollForJob_tagDispatch c7Env runnerA c7Db).2.2 ?_
    intro r hr hel
    obtain ⟨p, rep, hp, ht, _⟩ := hel
    have hp1 : p = { id := 1, repo_id := 1, name := "perf-pipeline",
                     config := { name := some "perf-pipeline", triggers := none,
                                 runner_tags := some ["linux", "perf"],
                                 steps := some [{ name := some "bench",
                                                  run := some "make bench",
                                                  capture_sizes := none,
                                                  ifCond := none }] },
                     next_run_at := none } := by
      have hr' : r ∈ c7Db.runs.filter fun x => x.status = .pending :=
        (List.mem_insertionSort runCreatedLe).mp hr
      have : r.pipeline_id = 1 := by
        simp only [c7Db, List.filter, List.mem_singleton] at hr'
        rcases hr' with h1
        simp_all
      rw [this] at hp
      simpa [getPipeline, c7Db, List.find?] using hp.symm
    rw [hp1] at ht
    exact absurd ht (by decide)
  · cases hj : (handlePollForJob c7Env runnerB c7Db).2 with
    | none =>
      have hsome : (handlePollForJob c7Env runnerB c7Db).2.isSome = true := by decide
      rw [hj] at hsome
      exact Bool.noConfusion hsome
    | some job =>
      have hprops := (handlePollForJob_tagDispatch c7Env runnerB c7Db).2.1 job hj
      exact ⟨job, rfl, hprops.1, hprops.2.1⟩

end Eifl

namespace Eifl

/-- The runner-at-rest invariant of the spec:
`0 ≤ active_jobs ≤ max_concurrency`. -/
def runnerInvariant (r : Runner) : Prop :=
  0 ≤ r.active_jobs ∧ r.active_jobs ≤ r.max_concurrency

theorem foldl_createMetric_runners (runId : Nat) (ms : List MetricInput) (db : Db) :
    (ms.foldl (fun d m => createMetric runId m.key m.value m.unit d) db).runners =
      db.runners := by
  induction ms generalizing db with
  | nil => rfl
  | cons m rest ih => simpa using ih (createMetric runId m.key m.value m.unit db)

theorem map_activeJobs_of_preserve {l : List Runner} {f : Runner → Runner}
    (hf : ∀ r, (f r).active_jobs = r.active_jobs) :
    (l.map f).map (·.active_jobs) = l.map (·.active_jobs) := by
  induction l with
  | nil => rfl
  | cons a t ih => simp [hf, ih]

end Eifl


namespace Eifl

/-- Doc for Claim C8: `0 ≤ active_jobs ≤ max_concurrency` is preserved: a
poll at capacity (`active_jobs ≥ max_concurrency`) returns no job and
leaves every `active_jobs` unchanged; a poll below capacity preserves the
invariant on every runner row; `runComplete` preserves it too, because
the store decrement clamps at zero — from zero it stays zero. -/
theorem runner_activeJobs_invariant (env : Env) (runner : Runner) (db : Db)
    (body : RunCompletePayload) (runnerId now rid : Nat) :
    (runner.active_jobs ≥ runner.max_concurrency →
      (handlePollForJob env runner db).2 = none ∧
      (handlePollForJob env runner db).1.runners.map (·.active_jobs) =
        db.runners.map (·.active_jobs)) ∧
    ((∀ r ∈ db.runners, runnerInvariant r) →
      (∀ r ∈ db.runners, r.id = runner.id →
        r.active_jobs = runner.active_jobs ∧
        r.max_concurrency = runner.max_concurrency) →
      ∀ r' ∈ (handlePollForJob env runner db).1.runners, runnerInvariant r') ∧
    ((∀ r ∈ db.runners, runnerInvariant r) →
      ∀ r' ∈ (handleRunComplete env runnerId body db).1.runners,
        runnerInvariant r') ∧
    ((∀ r ∈ db.runners, 0 ≤ r.active_jobs) →
      ∀ r' ∈ (decrementRunnerActiveJobs now rid db).runners,
        0 ≤ r'.active_jobs) := by
  refine ⟨?_, ?_, ?_, ?_⟩
  · intro hc
    constructor
    · simp only [handlePollForJob, if_pos hc]
    · simp only [handlePollForJob, if_pos hc, updateRunnerHeartbeat]
      exact map_activeJobs_of_preserve fun r => by
        by_cases hid : r.id = runner.id <;> simp [hid]
  · intro h1 h2 r' hr'
    simp only [handlePollForJob] at hr'
    by_cases hc : runner.active_jobs ≥ runner.max_concurrency
    · rw [if_pos hc] at hr'
      simp only [updateRunnerHeartbeat, List.mem_map] at hr'
      obtain ⟨r, hr, rfl⟩ := hr'
      have hi := h1 r hr
      by_cases hid : r.id = runner.id <;>
        simpa [runnerInvariant, hid] using hi
    · rw [if_neg hc] at hr'
      rw [pollCandidate_heartbeat] at hr'
      cases hcand : pollCandidate db runner.tags with
      | none =>
        rw [hcand] at hr'
        simp only [updateRunnerHeartbeat, List.mem_map] at hr'
        obtain ⟨r, hr, rfl⟩ := hr'
        have hi := h1 r hr
        by_cases hid : r.id = runner.id <;>
          simpa [runnerInvariant, hid] using hi
      | some triple =>
        obtain ⟨run0, p0, rep0⟩ := triple
        rw [hcand] at hr'
        by_cases hcap : runner.active_jobs + 1 ≥ runner.max_concurrency <;>
          [rw [if_pos hcap] at hr'; rw [if_neg hcap] at hr'] <;>
        · simp only [updateRunStatus, updateRunnerStatus,
            incrementRunnerActiveJobs, updateRunnerHeartbeat,
            List.map_map, List.mem_map] at hr'
          obtain ⟨r, hr, rfl⟩ := hr'
          have hi := h1 r hr
          unfold runnerInvariant at hi ⊢
          by_cases hid : r.id = runner.id
          · obtain ⟨ha, hm⟩ := h2 r hr hid
            simp [Function.comp, hid]
            omega
          · simp [Function.comp, hid]
            exact hi
  · intro h1 r' hr'
    simp only [handleRunComplete] at hr'
    by_cases h0 : body.runId = 0
    · rw [if_pos h0] at hr'
      exact h1 r' hr'
    · rw [if_neg h0] at hr'
      simp only [updateRunnerStatus, decrementRunnerActiveJobs,
        List.map_map, List.mem_map] at hr'
      obtain ⟨r, hr, rfl⟩ := hr'
      have hr2 : r ∈ db.runners := by
        cases hms : body.metrics with
        | none => rw [hms] at hr; exact hr
        | some ms =>
          rw [hms] at hr
          rw [foldl_createMetric_runners] at hr
          exact hr
      have hi := h1 r hr2
      unfold runnerInvariant at hi ⊢
      by_cases hid : r.id = runnerId
      · simp [Function.comp, hid]
        split_ifs <;> omega
      · simp [Function.comp, hid]
        exact hi
  · intro h0 r' hr'
    simp only [decrementRunnerActiveJobs, List.mem_map] at hr'
    obtain ⟨r, hr, rfl⟩ := hr'
    have := h0 r hr
    by_cases hid : r.id = rid
    · simp [hid]
      split_ifs <;> omega
    · simp [hid]
      exact this

end Eifl

namespace Eifl

instance (r : Runner) : Decidable (runnerInvariant r) :=
  inferInstanceAs (Decidable (0 ≤ r.active_jobs ∧ r.active_jobs ≤ r.max_concurrency))

/-- A runner at capacity (`active_jobs = max_concurrency = 1`). -/
def runnerC8 : Runner :=
  { id := 3, name := "C", token := "tokC", status := .busy, tags := [],
    max_concurrency := 1, active_jobs := 1, last_seen := none }

/-- Database for the concurrency-cap witness: the runner is mid-job on the
single running run. -/
def c8Db : Db :=
  { pipelines := [], repos := [],
    runs := [{ id := 1, pipeline_id := 1, status := .running,
               commit_sha := none, branch := none, triggered_by := some "manual",
               started_at := some 1, finished_at := none, created_at := 0 }],
    steps := [], metrics := [], baselines := [], runners := [runnerC8],
    secrets := [], nextPipelineId := 1, nextRunId := 2, nextStepId := 1,
    nextMetricId := 1 }

/-- The `runComplete` body for the witness. -/
def c8Body : RunCompletePayload :=
  { runId := 1, status := .success, metrics := none }

/-- Witness for Claim C8: the at-capacity runner polls and gets no job;
the invariant holds before and is preserved through `runComplete`. -/
theorem runner_activeJobs_invariant_witness :
    runnerC8.active_jobs ≥ runnerC8.max_concurrency ∧
    (handlePollForJob c7Env runnerC8 c8Db).2 = none ∧
    (∀ r ∈ c8Db.runners, runnerInvariant r) ∧
    (∀ r' ∈ (handleRunComplete c7Env 3 c8Body c8Db).1.runners, runnerInvariant r') :=
  ⟨by decide,
   ((runner_activeJobs_invariant c7Env runnerC8 c8Db c8Body 3 0 0).1 (by decide)).1,
   by decide,
   (runner_activeJobs_invariant c7Env runnerC8 c8Db c8Body 3 0 0).2.2.1 (by decide)⟩

end Eifl

namespace Eifl

/-- Modelled from the claim's words (spec §5): the reservation as the spec
describes it — `UPDATE runs SET status='running', started_at=now WHERE
id=? AND status='pending'` together with the number of changed rows.  The
source has no such statement; this definition exists to be compared with
the source's `updateRunStatus`. -/
def reserveRunConditional (now id : Nat) (db : Db) : Db × Nat :=
  ({ db with runs := db.runs.map fun r =>
      if r.id = id ∧ r.status = .pending then
        { r with status := .running, started_at := some now }
      else r },
   (db.runs.filter fun r => r.id = id ∧ r.status = .pending).length)

/-- A runs table whose only row is already cancelled. -/
def c1Db : Db :=
  { pipelines := [], repos := [],
    runs := [{ id := 1, pipeline_id := 1, status := .cancelled,
               commit_sha := none, branch := none, triggered_by := some "push",
               started_at := some 1, finished_at := some 3, created_at := 0 }],
    steps := [], metrics := [], baselines := [], runners := [], secrets := [],
    nextPipelineId := 1, nextRunId := 2, nextStepId := 1, nextMetricId := 1 }

/-- Counterexample for Claim C1: the dispatcher's status update
(`updateRunStatus`, `queries.ts` lines 174–183) is **not** the claimed
conditional update.  On a run that is not `pending` (here: `cancelled`)
the source's update still forces the status to `running`, whereas the
conditional update the claim describes would change zero rows and leave
the status alone; `handlePollForJob` never inspects a changed-rows count
and has no lost-the-race retry path. -/
theorem updateRunStatus_not_conditional_counterexample :
    ((updateRunStatus 5 1 .running c1Db).runs.map fun r => r.status) =
      [.running] ∧
    ((reserveRunConditional 5 1 c1Db).1.runs.map fun r => r.status) =
      [.cancelled] ∧
    (reserveRunConditional 5 1 c1Db).2 = 0 := by decide

/-- Doc for Claim C1 as amended: the dispatcher reserves the selected run
with an **unconditional** `UPDATE runs SET status='running',
started_at=now WHERE id=?`: whatever a row's current status, the update
sets it to `running` (there is no `AND status='pending'` clause, no
`changes=1` check and no move-to-next-candidate on a lost race); the run
the dispatcher selects does come from the pending list, so a poll
transitions a pending run to `running`. -/
theorem dispatcher_reservation_unconditional (env : Env) (runner : Runner)
    (db : Db) (now id : Nat) :
    (∀ r ∈ db.runs, r.id = id →
      updateRunRow now id .running r =
        { r with status := .running, started_at := some now } ∧
      updateRunRow now id .running r ∈ (updateRunStatus now id .running db).runs) ∧
    (∀ job, (handlePollForJob env runner db).2 = some job →
      job.run.status = .pending ∧
      ∃ r' ∈ (handlePollForJob env runner db).1.runs,
        r'.id = job.run.id ∧ r'.status = .running ∧
        r'.started_at = some env.now) := by
  constructor
  · intro r hr hid
    constructor
    · unfold updateRunRow
      rw [if_pos hid, if_pos rfl]
    · exact List.mem_map_of_mem _ hr
  · intro job h
    simp only [handlePollForJob] at h ⊢
    by_cases hc : runner.active_jobs ≥ runner.max_concurrency
    · rw [if_pos hc] at h
      exact absurd h (by simp)
    · rw [if_neg hc] at h
      rw [if_neg hc]
      rw [pollCandidate_heartbeat] at h
      cases hcand : pollCandidate db runner.tags with
      | none => rw [hcand] at h; exact absurd h (by simp)
      | some triple =>
        obtain ⟨run0, p0, rep0⟩ := triple
        rw [hcand] at h
        rw [pollCandidate_heartbeat, hcand]
        simp only [Option.some.injEq] at h
        have hjr : job.run = run0 := by rw [← h]
        unfold pollCandidate at hcand
        obtain ⟨hmem, _, _⟩ :=
          findSome?_pollStep_some (getPendingRuns_sorted db) hcand
        have hpend : run0.status = .pending := by
          have := (List.mem_insertionSort runCreatedLe).mp hmem
          have := List.mem_filter.mp this
          exact of_decide_eq_true this.2
      -- the run row reached by the final `updateRunStatus` is `run0`
      -- itself (its table position is preserved through the runner-only
      -- updates)
        constructor
        · rw [hjr]; exact hpend
        · refine ⟨updateRunRow env.now run0.id .running run0, ?_, ?_⟩
          · have hmem0 : run0 ∈ db.runs := by
              have h1 := (List.mem_insertionSort runCreatedLe).mp hmem
              exact (List.mem_filter.mp h1).1
            apply List.mem_map_of_mem
            split <;> exact hmem0
          · unfold updateRunRow
            rw [if_pos rfl, if_pos rfl]
            exact ⟨by rw [hjr], rfl, rfl⟩

/-- The cancelled row of `c1Db`. -/
def c1Run : Run :=
  { id := 1, pipeline_id := 1, status := .cancelled, commit_sha := none,
    branch := none, triggered_by := some "push", started_at := some 1,
    finished_at := some 3, created_at := 0 }

/-- Witness for the amended Claim C1: applying the source's reservation
update to the cancelled row overwrites it to `running` — the update is
keyed on id alone. -/
theorem dispatcher_reservation_unconditional_witness :
    c1Run ∈ c1Db.runs ∧ c1Run.id = 1 ∧
    updateRunRow 5 1 .running c1Run =
      { c1Run with status := .running, started_at := some 5 } ∧
    updateRunRow 5 1 .running c1Run ∈ (updateRunStatus 5 1 .running c1Db).runs :=
  ⟨by decide, by decide,
   ((dispatcher_reservation_unconditional
      { now := 5, githubToken := none, encryptionKey := none }
      runnerC8 c1Db 5 1).1 c1Run (by decide) (by decide)).1,
   ((dispatcher_reservation_unconditional
      { now := 5, githubToken := none, encryptionKey := none }
      runnerC8 c1Db 5 1).1 c1Run (by decide) (by decide)).2⟩

end Eifl

namespace Eifl

theorem updateRunRow_id (now id : Nat) (s : RunStatus) (r : Run) :
    (updateRunRow now id s r).id = r.id := by
  unfold updateRunRow
  repeat' split
  all_goals rfl

theorem getRun_updateRunStatus (now id : Nat) (s : RunStatus) (rid : Nat) (db : Db) :
    getRun (updateRunStatus now id s db) rid =
      (getRun db rid).map (updateRunRow now id s) := by
  unfold getRun updateRunStatus
  simp only
  generalize db.runs = l
  induction l with
  | nil => rfl
  | cons a t ih =>
    simp only [List.map_cons, List.find?_cons]
    by_cases hp : a.id = rid
    · simp [updateRunRow_id, hp]
    · simp [updateRunRow_id, hp, ih]

theorem foldl_createMetric_runs (runId : Nat) (ms : List MetricInput) (db : Db) :
    (ms.foldl (fun d m => createMetric runId m.key m.value m.unit d) db).runs =
      db.runs := by
  induction ms generalizing db with
  | nil => rfl
  | cons m rest ih => simpa using ih (createMetric runId m.key m.value m.unit db)

/-- The `runComplete` body reporting success for the cancelled run. -/
def c3Body : RunCompletePayload :=
  { runId := 1, status := .success, metrics := none }

/-- Counterexample for Claim C3: `handleRunComplete` goes through the
unconditional `updateRunStatus`, so a `runComplete(1, success)` arriving
for the cancelled run of `c1Db` overwrites its status to `success` — it
does not stay `cancelled`. -/
theorem runComplete_revives_cancelled_counterexample :
    ((handleRunComplete c7Env 3 c3Body c1Db).1.runs.map fun r => r.status) =
      [.success] := by decide

/-- Doc for Claim C3 as amended: once a run is `cancelled`, a
`runComplete(runId, status)` callback does **not** leave it `cancelled`:
the handler accepts the update and overwrites the run's status with the
reported terminal status (also refreshing `finished_at`), because the
store's `updateRunStatus` is keyed on id alone. -/
theorem runComplete_overwrites_cancelled (env : Env) (runnerId : Nat)
    (body : RunCompletePayload) (db : Db) (run : Run)
    (h0 : ¬ body.runId = 0)
    (hrun : getRun db body.runId = some run)
    (hc : run.status = .cancelled)
    (hterm : body.status = .success ∨ body.status = .failed) :
    ∃ r', getRun (handleRunComplete env runnerId body db).1 body.runId = some r' ∧
      r'.status = body.status ∧ r'.finished_at = some env.now := by
  have hruns : (handleRunComplete env runnerId body db).1.runs =
      (updateRunStatus env.now body.runId body.status db).runs := by
    simp only [handleRunComplete, if_neg h0]
    cases hms : body.metrics with
    | none => rfl
    | some ms =>
      show (ms.foldl (fun d m => createMetric body.runId m.key m.value m.unit d)
        (updateRunStatus env.now body.runId body.status db)).runs = _
      rw [foldl_createMetric_runs]
  have hget : getRun (handleRunComplete env runnerId body db).1 body.runId =
      getRun (updateRunStatus env.now body.runId body.status db) body.runId := by
    unfold getRun
    rw [hruns]
  rw [hget, getRun_updateRunStatus, hrun]
  have hid : run.id = body.runId := by
    have := List.find?_some hrun
    exact of_decide_eq_true this
  refine ⟨updateRunRow env.now body.runId body.status run, rfl, ?_, ?_⟩
  · unfold updateRunRow
    rw [if_pos hid]
    rcases hterm with h | h <;> rw [h] <;> rfl
  · unfold updateRunRow
    rw [if_pos hid]
    rcases hterm with h | h <;> rw [h] <;> rfl

/-- Witness for the amended Claim C3: the concrete cancelled run of
`c1Db` ends with status `success` after the callback. -/
theorem runComplete_overwrites_cancelled_witness :
    (¬ c3Body.runId = 0) ∧ getRun c1Db c3Body.runId = some c1Run ∧
    c1Run.status = .cancelled ∧
    ∃ r', getRun (handleRunComplete c7Env 3 c3Body c1Db).1 c3Body.runId = some r' ∧
      r'.status = c3Body.status ∧ r'.finished_at = some c7Env.now :=
  ⟨by decide, by decide, by decide,
   runComplete_overwrites_cancelled c7Env 3 c3Body c1Db c1Run (by decide)
     (by decide) (by decide) (.inl (by decide))⟩

end Eifl

namespace Eifl

/-- The deviation rule exactly as the spec words it (§4.G). -/
def deviationSpec (baseline current : ℚ) : ℚ :=
  if baseline = 0 then (if current = 0 then 0 else 100)
  else |current - baseline| / |baseline| * 100

theorem mkComparison_spec (m : Metric) (b : Baseline) :
    (mkComparison m b).deviationPct = deviationSpec b.baseline_value m.value ∧
    ((mkComparison m b).withinTolerance = false ↔
      (mkComparison m b).tolerancePct < (mkComparison m b).deviationPct) := by
  constructor
  · unfold mkComparison deviationSpec
    by_cases hb : b.baseline_value = 0
    · simp [hb]
    · simp [hb, jsAbs_eq_abs, abs_div]
  · unfold mkComparison
    simp [not_le]

theorem mem_compareMetricsToBaselines {db : Db} {rid : Nat} {c : BaselineComparison}
    (h : c ∈ compareMetricsToBaselines db rid) :
    ∃ m b, c = mkComparison m b := by
  unfold compareMetricsToBaselines at h
  cases hr : getRun db rid with
  | none => rw [hr] at h; simp at h
  | some run =>
    rw [hr] at h
    rw [List.mem_flatMap] at h
    obtain ⟨m, _, hc⟩ := h
    rw [List.mem_map] at hc
    obtain ⟨b, _, hbc⟩ := hc
    exact ⟨m, b, hbc.symm⟩

theorem compareMetricsToBaselines_congr {db1 db2 : Db} {rid : Nat}
    (h1 : db1.runs = db2.runs) (h2 : db1.metrics = db2.metrics)
    (h3 : db1.baselines = db2.baselines) :
    compareMetricsToBaselines db1 rid = compareMetricsToBaselines db2 rid := by
  unfold compareMetricsToBaselines getRun
  rw [h1, h2, h3]

/-- Doc for Claim C5: on `runComplete`, the baseline check joins the run's
metrics with the pipeline baselines by key; each comparison's deviation
follows the spec rule (0 when baseline and current are both 0, 100 when
only the baseline is 0, `|current − baseline| / |baseline| × 100`
otherwise), a comparison is a regression iff its deviation strictly
exceeds its tolerance, and the response's `baselineCheck` carries
`checked` = number of joined pairs, `regressions` = number failing, and
`hasRegressions` iff that number is positive. -/
theorem runComplete_baselineCheck (env : Env) (runnerId : Nat)
    (body : RunCompletePayload) (db : Db) (h0 : ¬ body.runId = 0) :
    ∃ check, (handleRunComplete env runnerId body db).2 = some check ∧
      (check.checked =
        (compareMetricsToBaselines (handleRunComplete env runnerId body db).1
          body.runId).length ∧
       check.regressions =
        ((compareMetricsToBaselines (handleRunComplete env runnerId body db).1
            body.runId).filter fun c => ¬ c.withinTolerance).length ∧
       (check.hasRegressions = true ↔ 0 < check.regressions) ∧
       ∀ c ∈ compareMetricsToBaselines (handleRunComplete env runnerId body db).1
          body.runId,
         c.deviationPct = deviationSpec c.baselineValue c.currentValue ∧
         (c.withinTolerance = false ↔ c.tolerancePct < c.deviationPct)) := by
  have hcongr : compareMetricsToBaselines (handleRunComplete env runnerId body db).1
      body.runId =
      compareMetricsToBaselines
        (match body.metrics with
         | some ms => ms.foldl (fun d m => createMetric body.runId m.key m.value m.unit d)
             (updateRunStatus env.now body.runId body.status db)
         | none => updateRunStatus env.now body.runId body.status db)
        body.runId := by
    apply compareMetricsToBaselines_congr <;>
      simp only [handleRunComplete, if_neg h0] <;> rfl
  cases hresp : (handleRunComplete env runnerId body db).2 with
  | none =>
    exfalso
    simp only [handleRunComplete, if_neg h0] at hresp
    exact Option.noConfusion hresp
  | some check =>
    simp only [handleRunComplete, if_neg h0, Option.some.injEq] at hresp
    subst hresp
    refine ⟨_, rfl, ?_, ?_, ?_, ?_⟩
    · show (compareMetricsToBaselines _ body.runId).length = _
      rw [hcongr]
    · show ((compareMetricsToBaselines _ body.runId).filter _).length = _
      rw [hcongr]
    · exact decide_eq_true_iff
    · intro c hc
      obtain ⟨m, b, rfl⟩ := mem_compareMetricsToBaselines hc
      have h := mkComparison_spec m b
      have hfields : (mkComparison m b).baselineValue = b.baseline_value ∧
          (mkComparison m b).currentValue = m.value := ⟨rfl, rfl⟩
      rw [hfields.1, hfields.2]
      exact h

end Eifl

namespace Eifl

/-- Database for the baseline-regression scenario: pipeline 1 has
baseline `{key: total_duration_ms, value: 1000, tolerance_pct: 10}`. -/
def c5Db : Db :=
  { pipelines := [], repos := [],
    runs := [{ id := 1, pipeline_id := 1, status := .running,
               commit_sha := none, branch := none, triggered_by := some "push",
               started_at := some 1, finished_at := none, created_at := 0 }],
    steps := [], metrics := [],
    baselines := [{ id := 1, pipeline_id := 1, key := "total_duration_ms",
                    baseline_value := 1000, tolerance_pct := 10 }],
    runners := [runnerC8], secrets := [],
    nextPipelineId := 1, nextRunId := 2, nextStepId := 1, nextMetricId := 1 }

/-- The run completes with metric `total_duration_ms = 1200`. -/
def c5Body : RunCompletePayload :=
  { runId := 1, status := .success,
    metrics := some [{ key := "total_duration_ms", value := 1200,
                       unit := some "ms" }] }

/-- The metric row inserted by `c5Body`'s `runComplete`. -/
def c5Metric : Metric :=
  { id := 1, run_id := 1, key := "total_duration_ms", value := 1200,
    unit := some "ms" }

/-- The baseline row of `c5Db`. -/
def c5Baseline : Baseline :=
  { id := 1, pipeline_id := 1, key := "total_duration_ms",
    baseline_value := 1000, tolerance_pct := 10 }

/-- Witness for Claim C5: `runComplete` returns
`baselineCheck = {checked: 1, regressions: 1, hasRegressions: true}` and
the single comparison's deviation is 20%. -/
theorem runComplete_baselineCheck_witness :
    (¬ c5Body.runId = 0) ∧
    (∃ check, (handleRunComplete c7Env 3 c5Body c5Db).2 = some check ∧
      (check.hasRegressions = true ↔ 0 < check.regressions)) ∧
    (handleRunComplete c7Env 3 c5Body c5Db).2 =
      some { checked := 1, regressions := 1, hasRegressions := true } ∧
    ((compareMetricsToBaselines (handleRunComplete c7Env 3 c5Body c5Db).1 1).map
      fun c => c.deviationPct) = [20] := by
  have hni : ¬ ((1000 : ℚ) = 0) := by norm_num
  have hdev : (mkComparison c5Metric c5Baseline).deviationPct = 20 := by
    show (if (1000 : ℚ) = 0 then if (1200 : ℚ) = 0 then 0 else 100
          else jsAbs (((1200 : ℚ) - 1000) / 1000) * 100) = 20
    rw [if_neg hni]
    unfold jsAbs
    rw [if_neg (by norm_num)]
    norm_num
  have hwit : (mkComparison c5Metric c5Baseline).withinTolerance = false := by
    show decide ((if (1000 : ℚ) = 0 then if (1200 : ℚ) = 0 then 0 else 100
          else jsAbs (((1200 : ℚ) - 1000) / 1000) * 100) ≤ 10) = false
    rw [if_neg hni]
    unfold jsAbs
    rw [if_neg (by norm_num)]
    apply decide_eq_false
    norm_num
  have hcomps : compareMetricsToBaselines (handleRunComplete c7Env 3 c5Body c5Db).1 1 =
      [mkComparison c5Metric c5Baseline] := rfl
  have hfilter : ([mkComparison c5Metric c5Baseline].filter fun c => ¬ c.withinTolerance) =
      [mkComparison c5Metric c5Baseline] := by
    simp [List.filter, hwit]
  refine ⟨by decide, ?_, ?_, ?_⟩
  · obtain ⟨check, hc, hx⟩ := runComplete_baselineCheck c7Env 3 c5Body c5Db (by decide)
    exact ⟨check, hc, hx.2.2.1⟩
  · have hr : (handleRunComplete c7Env 3 c5Body c5Db).2 =
        some { checked := ([mkComparison c5Metric c5Baseline]).length,
               regressions := (([mkComparison c5Metric c5Baseline]).filter
                  fun c => ¬ c.withinTolerance).length,
               hasRegressions := (([mkComparison c5Metric c5Baseline]).filter
                  fun c => ¬ c.withinTolerance).length > 0 } := rfl
    rw [hr, hfilter]
    simp
  · rw [hcomps]
    simp [hdev]

end Eifl

namespace Eifl

/-! Parser lemmas for the condition evaluator (Claim C4). -/

theorem dropWhile_all_append {p : Char → Bool} {xs : List Char}
    (h : ∀ c ∈ xs, p c = true) (l : List Char) :
    (xs ++ l).dropWhile p = l.dropWhile p := by
  induction xs with
  | nil => rfl
  | cons a t ih =>
    have ha := h a (List.mem_cons_self _ _)
    simp only [List.cons_append, List.dropWhile_cons, ha, if_true]
    exact ih fun c hc => h c (List.mem_cons_of_mem _ hc)

theorem takeWhile_all_append {p : Char → Bool} {xs rest : List Char}
    (h : ∀ c ∈ xs, p c = true)
    (hrest : rest = [] ∨ ∃ c t, rest = c :: t ∧ p c = false) :
    (xs ++ rest).takeWhile p = xs ∧ (xs ++ rest).dropWhile p = rest := by
  induction xs with
  | nil =>
    rcases hrest with rfl | ⟨c, t, rfl, hc⟩
    · exact ⟨rfl, rfl⟩
    · simp [List.takeWhile_cons, List.dropWhile_cons, hc]
  | cons a t ih =>
    have ha := h a (List.mem_cons_self _ _)
    have := ih fun c hc => h c (List.mem_cons_of_mem _ hc)
    simp [List.takeWhile_cons, List.dropWhile_cons, ha, this.1, this.2]

theorem dropWhile_all_eq_nil {p : Char → Bool} {l : List Char}
    (h : ∀ c ∈ l, p c = true) : l.dropWhile p = [] := by
  induction l with
  | nil => rfl
  | cons a t ih =>
    simp only [List.dropWhile_cons, h a (List.mem_cons_self _ _), if_true]
    exact ih fun c hc => h c (List.mem_cons_of_mem _ hc)

/-- A whitespace character is never a `\w` character. -/
theorem ws_not_word {c : Char} (h : isWsChar c = true) : isWordChar c = false := by
  unfold isWsChar at h
  rw [Char.isWhitespace] at h
  simp only [Bool.or_eq_true, decide_eq_true_eq] at h
  rcases h with ((h | h) | h) | h <;> subst h <;> decide

/-- A `\w` character is never whitespace. -/
theorem word_not_ws {c : Char} (h : isWordChar c = true) : isWsChar c = false := by
  by_cases hw : isWsChar c = true
  · rw [ws_not_word hw] at h
    exact Bool.noConfusion h
  · exact Bool.not_eq_true _ ▸ hw

end Eifl

namespace Eifl

/-- The language of the two condition regexes, spelled out: optional
whitespace, a nonempty `\w+` variable, optional whitespace, `==` or `!=`,
optional whitespace, a single-quoted nonempty literal without quotes, and
optional trailing whitespace. -/
def CondShape (l : List Char) (v : String) (isEq : Bool) (lit : String) : Prop :=
  ∃ ws0 ws1 ws2 ws3 : List Char,
    (∀ c ∈ ws0, isWsChar c = true) ∧ (∀ c ∈ ws1, isWsChar c = true) ∧
    (∀ c ∈ ws2, isWsChar c = true) ∧ (∀ c ∈ ws3, isWsChar c = true) ∧
    l = ws0 ++ v.data ++ ws1 ++ (if isEq then ['=', '='] else ['!', '=']) ++
        (ws2 ++ '\'' :: lit.data ++ '\'' :: ws3) ∧
    v.data ≠ [] ∧ (∀ c ∈ v.data, isWordChar c = true) ∧
    lit.data ≠ [] ∧ (∀ c ∈ lit.data, c ≠ '\'')

end Eifl

namespace Eifl

theorem parseCondLit_shape {ws2 ws3 : List Char} {lit : String}
    (h2 : ∀ c ∈ ws2, isWsChar c = true) (h3 : ∀ c ∈ ws3, isWsChar c = true)
    (hl : lit.data ≠ []) (hlq : ∀ c ∈ lit.data, c ≠ '\'') :
    parseCondLit (ws2 ++ '\'' :: lit.data ++ '\'' :: ws3) = some lit := by
  unfold parseCondLit
  have e1 : (ws2 ++ '\'' :: lit.data ++ '\'' :: ws3).dropWhile isWsChar =
      '\'' :: (lit.data ++ '\'' :: ws3) := by
    rw [List.append_assoc, dropWhile_all_append h2, List.cons_append,
      List.dropWhile_cons, if_neg (by decide)]
  rw [e1]
  dsimp only
  rw [if_pos rfl]
  have hq : ∀ c ∈ lit.data, (fun x => decide (x ≠ '\'')) c = true :=
    fun c hc => decide_eq_true (hlq c hc)
  have e2 := @takeWhile_all_append (fun x => decide (x ≠ '\'')) lit.data
    ('\'' :: ws3) hq (.inr ⟨'\'', ws3, rfl, by decide⟩)
  rw [e2.1, e2.2]
  have hne : lit.data.isEmpty = false := by
    cases hd : lit.data with
    | nil => exact absurd hd hl
    | cons a t => rfl
  rw [hne]
  dsimp only
  rw [if_pos rfl, dropWhile_all_eq_nil h3]
  rfl

end Eifl

namespace Eifl

theorem parseCond_of_condShape {l : List Char} {v : String} {isEq : Bool}
    {lit : String} (h : CondShape l v isEq lit) :
    parseCond l = some (v, isEq, lit) := by
  obtain ⟨ws0, ws1, ws2, ws3, h0, h1, h2, h3, rfl, hv, hvw, hl, hlq⟩ := h
  obtain ⟨c0, vt, hveq⟩ : ∃ c0 vt, v.data = c0 :: vt := by
    cases hd : v.data with
    | nil => exact absurd hd hv
    | cons a t => exact ⟨a, t, rfl⟩
  have hc0w : isWordChar c0 = true := hvw c0 (by rw [hveq]; exact List.mem_cons_self _ _)
  have hc0ws : isWsChar c0 = false := word_not_ws hc0w
  have hne : v.data.isEmpty = false := by rw [hveq]; rfl
  cases isEq with
  | true =>
    have hL : ws0 ++ v.data ++ ws1 ++ (if true then ['=', '='] else ['!', '=']) ++
        (ws2 ++ '\'' :: lit.data ++ '\'' :: ws3) =
        ws0 ++ (v.data ++ (ws1 ++ ('=' :: '=' ::
          (ws2 ++ '\'' :: lit.data ++ '\'' :: ws3)))) := by
      simp [List.append_assoc]
    rw [hL]
    unfold parseCond
    have e1 : (ws0 ++ (v.data ++ (ws1 ++ ('=' :: '=' ::
        (ws2 ++ '\'' :: lit.data ++ '\'' :: ws3))))).dropWhile isWsChar =
        v.data ++ (ws1 ++ ('=' :: '=' ::
          (ws2 ++ '\'' :: lit.data ++ '\'' :: ws3))) := by
      rw [dropWhile_all_append h0, hveq, List.cons_append, List.dropWhile_cons,
        hc0ws]
      simp
    rw [e1]
    dsimp only
    have hrest : ws1 ++ ('=' :: '=' :: (ws2 ++ '\'' :: lit.data ++ '\'' :: ws3)) = [] ∨
        ∃ c t, ws1 ++ ('=' :: '=' :: (ws2 ++ '\'' :: lit.data ++ '\'' :: ws3)) = c :: t ∧
          isWordChar c = false := by
      cases hws1 : ws1 with
      | nil => exact .inr ⟨'=', _, rfl, by decide⟩
      | cons a t =>
        exact .inr ⟨a, t ++ ('=' :: '=' :: (ws2 ++ '\'' :: lit.data ++ '\'' :: ws3)),
          List.cons_append _ _ _,
          ws_not_word (h1 a (by rw [hws1]; exact List.mem_cons_self _ _))⟩
    have e2 := @takeWhile_all_append isWordChar v.data _ hvw hrest
    rw [e2.1, e2.2, hne]
    simp only [Bool.false_eq_true, if_false]
    have e3 : (ws1 ++ ('=' :: '=' ::
        (ws2 ++ '\'' :: lit.data ++ '\'' :: ws3))).dropWhile isWsChar =
        '=' :: '=' :: (ws2 ++ '\'' :: lit.data ++ '\'' :: ws3) := by
      rw [dropWhile_all_append h1, List.dropWhile_cons, if_neg (by decide)]
    rw [e3]
    dsimp only
    rw [if_pos ⟨rfl, rfl⟩, parseCondLit_shape h2 h3 hl hlq]
    rfl
  | false =>
    have hL : ws0 ++ v.data ++ ws1 ++ (if false then ['=', '='] else ['!', '=']) ++
        (ws2 ++ '\'' :: lit.data ++ '\'' :: ws3) =
        ws0 ++ (v.data ++ (ws1 ++ ('!' :: '=' ::
          (ws2 ++ '\'' :: lit.data ++ '\'' :: ws3)))) := by
      simp [List.append_assoc]
    rw [hL]
    unfold parseCond
    have e1 : (ws0 ++ (v.data ++ (ws1 ++ ('!' :: '=' ::
        (ws2 ++ '\'' :: lit.data ++ '\'' :: ws3))))).dropWhile isWsChar =
        v.data ++ (ws1 ++ ('!' :: '=' ::
          (ws2 ++ '\'' :: lit.data ++ '\'' :: ws3))) := by
      rw [dropWhile_all_append h0, hveq, List.cons_append, List.dropWhile_cons,
        hc0ws]
      simp
    rw [e1]
    dsimp only
    have hrest : ws1 ++ ('!' :: '=' :: (ws2 ++ '\'' :: lit.data ++ '\'' :: ws3)) = [] ∨
        ∃ c t, ws1 ++ ('!' :: '=' :: (ws2 ++ '\'' :: lit.data ++ '\'' :: ws3)) = c :: t ∧
          isWordChar c = false := by
      cases hws1 : ws1 with
      | nil => exact .inr ⟨'!', _, rfl, by decide⟩
      | cons a t =>
        exact .inr ⟨a, t ++ ('!' :: '=' :: (ws2 ++ '\'' :: lit.data ++ '\'' :: ws3)),
          List.cons_append _ _ _,
          ws_not_word (h1 a (by rw [hws1]; exact List.mem_cons_self _ _))⟩
    have e2 := @takeWhile_all_append isWordChar v.data _ hvw hrest
    rw [e2.1, e2.2, hne]
    simp only [Bool.false_eq_true, if_false]
    have e3 : (ws1 ++ ('!' :: '=' ::
        (ws2 ++ '\'' :: lit.data ++ '\'' :: ws3))).dropWhile isWsChar =
        '!' :: '=' :: (ws2 ++ '\'' :: lit.data ++ '\'' :: ws3) := by
      rw [dropWhile_all_append h1, List.dropWhile_cons, if_neg (by decide)]
    rw [e3]
    dsimp only
    rw [if_neg (by decide), if_pos ⟨rfl, rfl⟩, parseCondLit_shape h2 h3 hl hlq]
    rfl

end Eifl

namespace Eifl

theorem parseCondLit_sound {l2 : List Char} {lit : String}
    (h : parseCondLit l2 = some lit) :
    ∃ ws2 ws3, (∀ c ∈ ws2, isWsChar c = true) ∧ (∀ c ∈ ws3, isWsChar c = true) ∧
      l2 = ws2 ++ '\'' :: lit.data ++ '\'' :: ws3 ∧ lit.data ≠ [] ∧
      ∀ c ∈ lit.data, c ≠ '\'' := by
  unfold parseCondLit at h
  cases hd : l2.dropWhile isWsChar with
  | nil => rw [hd] at h; exact absurd h (by simp)
  | cons c l1 =>
    rw [hd] at h
    dsimp only at h
    by_cases hc : c = '\''
    · rw [if_pos hc] at h
      subst hc
      by_cases he : (l1.takeWhile fun x => decide (x ≠ '\'')).isEmpty
      · rw [if_pos he] at h; exact absurd h (by simp)
      · rw [if_neg he] at h
        cases hdq : l1.dropWhile (fun x => decide (x ≠ '\'')) with
        | nil => rw [hdq] at h; exact absurd h (by simp)
        | cons d l3 =>
          rw [hdq] at h
          dsimp only at h
          by_cases hd2 : d = '\''
          · rw [if_pos hd2] at h
            subst hd2
            by_cases hws : (l3.dropWhile isWsChar).isEmpty
            · rw [if_pos hws] at h
              have hlit : lit = ⟨l1.takeWhile fun x => decide (x ≠ '\'')⟩ := by
                injection h with h'
                exact h'.symm
              have hdata : lit.data = l1.takeWhile fun x => decide (x ≠ '\'') := by
                rw [hlit]
              refine ⟨l2.takeWhile isWsChar, l3, ?_, ?_, ?_, ?_, ?_⟩
              · intro x hx
                exact List.mem_takeWhile_imp hx
              · intro x hx
                have : l3.dropWhile isWsChar = [] := List.isEmpty_iff.mp hws
                exact List.dropWhile_eq_nil_iff.mp this x hx
              · have hl2 : l2.takeWhile isWsChar ++ ('\'' :: l1) = l2 := by
                  rw [← hd]
                  exact List.takeWhile_append_dropWhile _ _
                have hl1 : l1 = lit.data ++ '\'' :: l3 := by
                  rw [hdata, ← hdq]
                  exact (List.takeWhile_append_dropWhile _ _).symm
                conv_lhs => rw [← hl2, hl1]
                simp [List.append_assoc]
              · rw [hdata]
                intro hnil
                rw [hnil] at he
                exact he rfl
              · intro x hx
                rw [hdata] at hx
                have := List.mem_takeWhile_imp hx
                exact of_decide_eq_true this
            · rw [if_neg hws] at h; exact absurd h (by simp)
          · rw [if_neg hd2] at h; exact absurd h (by simp)
    · rw [if_neg hc] at h; exact absurd h (by simp)

end Eifl

namespace Eifl

theorem parseCond_sound {l : List Char} {v : String} {isEq : Bool} {lit : String}
    (h : parseCond l = some (v, isEq, lit)) : CondShape l v isEq lit := by
  unfold parseCond at h
  dsimp only at h
  by_cases he : ((l.dropWhile isWsChar).takeWhile isWordChar).isEmpty
  · rw [if_pos he] at h; exact absurd h (by simp)
  · rw [if_neg he] at h
    cases hm : ((l.dropWhile isWsChar).dropWhile isWordChar).dropWhile isWsChar with
    | nil => rw [hm] at h; exact absurd h (by simp)
    | cons a rest =>
      cases rest with
      | nil => rw [hm] at h; exact absurd h (by simp)
      | cons b l2 =>
        rw [hm] at h
        dsimp only at h
        have hws0 : ∀ c ∈ l.takeWhile isWsChar, isWsChar c = true :=
          fun c hc => List.mem_takeWhile_imp hc
        have hws1 : ∀ c ∈ ((l.dropWhile isWsChar).dropWhile isWordChar).takeWhile isWsChar,
            isWsChar c = true := fun c hc => List.mem_takeWhile_imp hc
        have hvw : ∀ c ∈ (l.dropWhile isWsChar).takeWhile isWordChar,
            isWordChar c = true := fun c hc => List.mem_takeWhile_imp hc
        have hvne : (l.dropWhile isWsChar).takeWhile isWordChar ≠ [] := by
          intro hnil
          rw [hnil] at he
          exact he rfl
        have hl0 : l.takeWhile isWsChar ++ l.dropWhile isWsChar = l :=
          List.takeWhile_append_dropWhile _ _
        have hl1 : (l.dropWhile isWsChar).takeWhile isWordChar ++
            (l.dropWhile isWsChar).dropWhile isWordChar = l.dropWhile isWsChar :=
          List.takeWhile_append_dropWhile _ _
        have hl2 : ((l.dropWhile isWsChar).dropWhile isWordChar).takeWhile isWsChar ++
            (a :: b :: l2) = (l.dropWhile isWsChar).dropWhile isWordChar := by
          rw [← hm]
          exact List.takeWhile_append_dropWhile _ _
        by_cases hab : a = '=' ∧ b = '='
        · rw [if_pos hab] at h
          obtain ⟨lit0, hpl, heq⟩ := Option.map_eq_some'.mp h
          obtain ⟨hv1, hv2, hv3⟩ : (⟨(l.dropWhile isWsChar).takeWhile isWordChar⟩ :
              String) = v ∧ true = isEq ∧ lit0 = lit := by
            have h1 := congrArg Prod.fst heq
            have h2 := congrArg (fun p => p.2.1) heq
            have h3 := congrArg (fun p => p.2.2) heq
            exact ⟨h1, h2, h3⟩
          obtain ⟨ws2, ws3, hw2, hw3, hleq, hlne, hlq⟩ := parseCondLit_sound hpl
          refine ⟨l.takeWhile isWsChar,
            ((l.dropWhile isWsChar).dropWhile isWordChar).takeWhile isWsChar,
            ws2, ws3, hws0, hws1, hw2, hw3, ?_, ?_, ?_, ?_, ?_⟩
          · rw [← hv2, ← hv3]
            have hvdata : v.data = (l.dropWhile isWsChar).takeWhile isWordChar := by
              rw [← hv1]
            rw [hvdata]
            conv_lhs => rw [← hl0, ← hl1, ← hl2]
            rw [hab.1, hab.2, hleq]
            simp [List.append_assoc]
          · rw [← hv1]; exact hvne
          · rw [← hv1]; exact hvw
          · rw [← hv3]; exact hlne
          · rw [← hv3]; exact hlq
        · rw [if_neg hab] at h
          by_cases hab2 : a = '!' ∧ b = '='
          · rw [if_pos hab2] at h
            obtain ⟨lit0, hpl, heq⟩ := Option.map_eq_some'.mp h
            obtain ⟨hv1, hv2, hv3⟩ : (⟨(l.dropWhile isWsChar).takeWhile isWordChar⟩ :
                String) = v ∧ false = isEq ∧ lit0 = lit := by
              have h1 := congrArg Prod.fst heq
              have h2 := congrArg (fun p => p.2.1) heq
              have h3 := congrArg (fun p => p.2.2) heq
              exact ⟨h1, h2, h3⟩
            obtain ⟨ws2, ws3, hw2, hw3, hleq, hlne, hlq⟩ := parseCondLit_sound hpl
            refine ⟨l.takeWhile isWsChar,
              ((l.dropWhile isWsChar).dropWhile isWordChar).takeWhile isWsChar,
              ws2, ws3, hws0, hws1, hw2, hw3, ?_, ?_, ?_, ?_, ?_⟩
            · rw [← hv2, ← hv3]
              have hvdata : v.data = (l.dropWhile isWsChar).takeWhile isWordChar := by
                rw [← hv1]
              rw [hvdata]
              conv_lhs => rw [← hl0, ← hl1, ← hl2]
              rw [hab2.1, hab2.2, hleq]
              simp [List.append_assoc]
            · rw [← hv1]; exact hvne
            · rw [← hv1]; exact hvw
            · rw [← hv3]; exact hlne
            · rw [← hv3]; exact hlq
          · rw [if_neg hab2] at h
            exact absurd h (by simp)

end Eifl

namespace Eifl

/-! Claim C4: condition evaluation and the fate of skipped steps. -/

/-- The step row of the C4 scenario, stored `pending` at dispatch. -/
def c4Step : Step :=
  { id := 1, run_id := 1, name := "Test Step", command := "echo Hello",
    status := .pending, exit_code := none, output := none,
    started_at := none, finished_at := none }

/-- The manifest step of the C4 scenario, guarded by
`if: "trigger == 'schedule'"`. -/
def c4CfgStep : PipelineStep :=
  { name := "Test Step", run := "echo Hello", capture_sizes := none,
    ifCond := some "trigger == 'schedule'" }

/-- The evaluation context of a push-triggered run on `main`. -/
def c4Ctx : String → Option String := jobContext (some "push") (some "main")

/-- Claim C4, counterexample: on a push-triggered run, a step guarded by
`if: "trigger == 'schedule'"` does evaluate to `false`, but the executor
passes over it with a bare `continue` — it issues **no** status callback
for the step, so the row keeps its stored `pending` status and is never
marked `skipped` as the claim asserts. -/
theorem stepCondition_no_skipped_counterexample :
    evaluateCondition "trigger == 'schedule'" c4Ctx = false ∧
    executeJobUpdates (fun _ => 0) c4Ctx [c4Step] [c4CfgStep] = [] ∧
    finalStepStatus (executeJobUpdates (fun _ => 0) c4Ctx [c4Step] [c4CfgStep]) c4Step =
      StepStatus.pending ∧
    StepStatus.pending ≠ StepStatus.skipped := by
  refine ⟨by decide, by decide, by decide, by decide⟩

/-- Claim C4 (amended): the evaluator recognises exactly the two regex
forms — on any string of shape `var == 'lit'` / `var != 'lit'` (optional
whitespace) it returns the (in)equality of `context[var]` with the
literal, and on every other string it returns `false` — but a step whose
condition evaluates to `false` is **not** marked `skipped`: the executor
emits no status update for it and the row stays `pending`, while a step
whose condition evaluates to `true` reports `running` and then
`success`/`failed` according to its exit code. -/
theorem stepCondition_eval_amended
    (exec : String → Int) (ctx : String → Option String)
    (step : Step) (cfgStep : PipelineStep) (cond : String)
    (hcfg : cfgStep.ifCond = some cond)
    (hpend : step.status = StepStatus.pending) :
    (∀ v isEq lit, CondShape cond.data v isEq lit →
        evaluateCondition cond ctx =
          (if isEq then ctx v == some lit else !(ctx v == some lit))) ∧
    ((∀ v isEq lit, ¬ CondShape cond.data v isEq lit) →
        evaluateCondition cond ctx = false) ∧
    (evaluateCondition cond ctx = false →
        executeJobUpdates exec ctx [step] [cfgStep] = [] ∧
        finalStepStatus (executeJobUpdates exec ctx [step] [cfgStep]) step =
          StepStatus.pending) ∧
    (evaluateCondition cond ctx = true →
        executeJobUpdates exec ctx [step] [cfgStep] =
          [(step.id, StepStatus.running),
           (step.id, if exec step.command = 0 then StepStatus.success
                     else StepStatus.failed)]) := by
  refine ⟨?_, ?_, ?_, ?_⟩
  · intro v isEq lit h
    have hp := parseCond_of_condShape h
    unfold evaluateCondition
    rw [hp]
    cases isEq <;> simp
  · intro hnone
    unfold evaluateCondition
    cases hp : parseCond cond.data with
    | none => rfl
    | some t =>
      obtain ⟨v, e, l⟩ := t
      exact absurd (parseCond_sound hp) (hnone v e l)
  · intro hf
    have hupd : executeJobUpdates exec ctx [step] [cfgStep] = [] := by
      unfold executeJobUpdates
      simp [executeJobUpdates, hcfg, hf]
    refine ⟨hupd, ?_⟩
    rw [hupd]
    unfold finalStepStatus
    simp [hpend]
  · intro ht
    unfold executeJobUpdates
    simp [executeJobUpdates, hcfg, ht]

/-- Witness for the amended C4 theorem at the concrete push-triggered
scenario. -/
theorem stepCondition_eval_amended_witness :
    c4CfgStep.ifCond = some "trigger == 'schedule'" ∧
    c4Step.status = StepStatus.pending ∧
    (evaluateCondition "trigger == 'schedule'" c4Ctx = false →
      executeJobUpdates (fun _ => (0 : Int)) c4Ctx [c4Step] [c4CfgStep] = [] ∧
      finalStepStatus (executeJobUpdates (fun _ => (0 : Int)) c4Ctx [c4Step] [c4CfgStep])
        c4Step = StepStatus.pending) :=
  ⟨rfl, rfl,
    (stepCondition_eval_amended (fun _ => (0 : Int)) c4Ctx c4Step c4CfgStep
      "trigger == 'schedule'" rfl rfl).2.2.1⟩

end Eifl

namespace Eifl

/-! Claim C9: secret encryption round-trip and IV freshness. -/

theorem b64val_b64char : ∀ d < 64, b64val (b64char d) = some d := by decide

theorem b64char_lt_ne_eq : ∀ d < 64, b64char d ≠ '=' := by decide

theorem b64_roundtrip : ∀ bs : List Nat, (∀ b ∈ bs, b < 256) →
    b64dechunks (b64chunks bs) = some bs := by
  intro bs
  induction bs using b64chunks.induct with
  | case1 =>
    intro _
    rfl
  | case2 a =>
    intro h
    have ha := h a (List.mem_cons_self _ _)
    have h1 := b64val_b64char (a / 4) (by omega)
    have h2 := b64val_b64char (a % 4 * 16) (by omega)
    show b64dechunks [b64char (a / 4), b64char (a % 4 * 16), '=', '='] = some [a]
    rw [b64dechunks, h1, h2]
    show some [a / 4 * 4 + a % 4 * 16 / 16] = some [a]
    have e1 : a / 4 * 4 + a % 4 * 16 / 16 = a := by omega
    rw [e1]
  | case3 a b =>
    intro h
    have ha := h a (by simp)
    have hb := h b (by simp)
    have h1 := b64val_b64char (a / 4) (by omega)
    have h2 := b64val_b64char (a % 4 * 16 + b / 16) (by omega)
    have h3 := b64val_b64char (b % 16 * 4) (by omega)
    show b64dechunks [b64char (a / 4), b64char (a % 4 * 16 + b / 16),
        b64char (b % 16 * 4), '='] = some [a, b]
    rw [b64dechunks, h1, h2, h3]
    show some [a / 4 * 4 + (a % 4 * 16 + b / 16) / 16,
        (a % 4 * 16 + b / 16) % 16 * 16 + b % 16 * 4 / 4] = some [a, b]
    have e1 : a / 4 * 4 + (a % 4 * 16 + b / 16) / 16 = a := by omega
    have e2 : (a % 4 * 16 + b / 16) % 16 * 16 + b % 16 * 4 / 4 = b := by omega
    rw [e1, e2]
    intro heq
    exact b64char_lt_ne_eq (b % 16 * 4) (by omega) heq
  | case4 a b c rest ih =>
    intro h
    have ha := h a (by simp)
    have hb := h b (by simp)
    have hc := h c (by simp)
    have h1 := b64val_b64char (a / 4) (by omega)
    have h2 := b64val_b64char (a % 4 * 16 + b / 16) (by omega)
    have h3 := b64val_b64char (b % 16 * 4 + c / 64) (by omega)
    have h4 := b64val_b64char (c % 64) (by omega)
    have hrest := ih fun x hx => h x (by simp [hx])
    show b64dechunks (b64char (a / 4) :: b64char (a % 4 * 16 + b / 16) ::
        b64char (b % 16 * 4 + c / 64) :: b64char (c % 64) :: b64chunks rest) =
      some (a :: b :: c :: rest)
    rw [b64dechunks, h1, h2, h3, h4, hrest]
    · show some ((a / 4 * 4 + (a % 4 * 16 + b / 16) / 16) ::
          ((a % 4 * 16 + b / 16) % 16 * 16 + (b % 16 * 4 + c / 64) / 4) ::
          ((b % 16 * 4 + c / 64) % 4 * 64 + c % 64) :: rest) =
        some (a :: b :: c :: rest)
      have e1 : a / 4 * 4 + (a % 4 * 16 + b / 16) / 16 = a := by omega
      have e2 : (a % 4 * 16 + b / 16) % 16 * 16 + (b % 16 * 4 + c / 64) / 4 = b := by omega
      have e3 : (b % 16 * 4 + c / 64) % 4 * 64 + c % 64 = c := by omega
      rw [e1, e2, e3]
    · intros
      first
      | exact b64char_lt_ne_eq (b % 16 * 4 + c / 64) (by omega) (by assumption)
      | exact b64char_lt_ne_eq (c % 64) (by omega) (by assumption)
    · intros
      first
      | exact b64char_lt_ne_eq (b % 16 * 4 + c / 64) (by omega) (by assumption)
      | exact b64char_lt_ne_eq (c % 64) (by omega) (by assumption)

end Eifl

namespace Eifl

theorem ctrXor_length (key : Nat) (iv : List Nat) :
    ∀ (bs : List Nat) (i : Nat), (ctrXor key iv bs i).length = bs.length := by
  intro bs
  induction bs with
  | nil => intro i; rfl
  | cons b t ih =>
    intro i
    show (ctrXor key iv (b :: t) i).length = t.length + 1
    rw [ctrXor]
    simp [ih]

theorem ctrXor_involutive (key : Nat) (iv : List Nat) :
    ∀ (bs : List Nat) (i : Nat), ctrXor key iv (ctrXor key iv bs i) i = bs := by
  intro bs
  induction bs with
  | nil => intro i; rfl
  | cons b t ih =>
    intro i
    rw [ctrXor, ctrXor, Nat.xor_cancel_right, ih]

theorem ksByte_lt (key : Nat) (iv : List Nat) (i : Nat) : ksByte key iv i < 256 :=
  Nat.mod_lt _ (by omega)

theorem ctrXor_lt (key : Nat) (iv : List Nat) :
    ∀ (bs : List Nat) (i : Nat), (∀ b ∈ bs, b < 256) →
      ∀ x ∈ ctrXor key iv bs i, x < 256 := by
  intro bs
  induction bs with
  | nil => intro i _ x hx; exact absurd hx (by simp [ctrXor])
  | cons b t ih =>
    intro i h x hx
    rw [ctrXor] at hx
    rcases List.mem_cons.mp hx with hx | hx
    · subst hx
      have hb : b < 2 ^ 8 := h b (by simp)
      have hk : ksByte key iv i < 2 ^ 8 := ksByte_lt key iv i
      exact Nat.xor_lt_two_pow hb hk
    · exact ih (i + 1) (fun y hy => h y (by simp [hy])) x hx

theorem tagFold_lt (init : Nat) (h : init < 256) :
    ∀ ct : List Nat, ct.foldl (fun a b => (a * 31 + b) % 256) init < 256 := by
  intro ct
  induction ct generalizing init with
  | nil => exact h
  | cons c t ih =>
    show List.foldl (fun a b => (a * 31 + b) % 256) ((init * 31 + c) % 256) t < 256
    exact ih _ (Nat.mod_lt _ (by omega))
  
theorem tagBytes_lt (key : Nat) (iv ct : List Nat) :
    ∀ x ∈ tagBytes key iv ct, x < 256 := by
  intro x hx
  rw [tagBytes] at hx
  obtain ⟨i, _, hof⟩ := List.mem_map.mp hx
  rw [← hof]
  exact tagFold_lt _ (ksByte_lt key iv _) ct

theorem tagBytes_length (key : Nat) (iv ct : List Nat) :
    (tagBytes key iv ct).length = 16 := by
  rw [tagBytes]
  simp

theorem gcmSeal_lt (key : Nat) (iv pt : List Nat) (h : ∀ b ∈ pt, b < 256) :
    ∀ x ∈ gcmSeal key iv pt, x < 256 := by
  intro x hx
  rw [gcmSeal] at hx
  rcases List.mem_append.mp hx with hx | hx
  · exact ctrXor_lt key iv pt 0 h x hx
  · exact tagBytes_lt key iv _ x hx

theorem gcmOpen_gcmSeal (key : Nat) (iv pt : List Nat) :
    gcmOpen key iv (gcmSeal key iv pt) = some pt := by
  rw [gcmOpen, gcmSeal]
  have hlb : (ctrXor key iv pt 0).length = pt.length := ctrXor_length key iv pt 0
  have hlen : (ctrXor key iv pt 0 ++ tagBytes key iv (ctrXor key iv pt 0)).length
      = pt.length + 16 := by
    rw [List.length_append, hlb, tagBytes_length]
  rw [hlen]
  rw [if_neg (by omega)]
  have hn : pt.length + 16 - 16 = (ctrXor key iv pt 0).length := by omega
  rw [hn, List.take_left' rfl, List.drop_left' rfl, if_pos rfl,
    ctrXor_involutive]

end Eifl

namespace Eifl

/-- Claim C9: with the encryption key configured (present and at least 32
characters), decrypting the ciphertext/IV pair produced by `encryptSecret`
returns the original plaintext bytes, and two encryptions of the same
plaintext under the distinct fresh 12-byte IVs drawn by
`crypto.getRandomValues` produce distinct `EncryptedData` values (the
base64 IV components already differ). -/
theorem encryptSecret_roundtrip_distinct
    (envKey : Option String) (k : String) (pt iv1 iv2 : List Nat)
    (hk : envKey = some k) (hklen : 32 ≤ k.length)
    (hpt : ∀ b ∈ pt, b < 256)
    (hiv1 : ∀ b ∈ iv1, b < 256) (hiv2 : ∀ b ∈ iv2, b < 256)
    (hlen1 : iv1.length = 12) (hlen2 : iv2.length = 12)
    (hne : iv1 ≠ iv2) :
    (∃ e, encryptSecret envKey iv1 pt = .ok e ∧
        decryptSecret envKey e.encrypted e.iv = .ok pt) ∧
    (∀ e1 e2, encryptSecret envKey iv1 pt = .ok e1 →
        encryptSecret envKey iv2 pt = .ok e2 → e1 ≠ e2) := by
  subst hk
  have hkey : getEncryptionKey (some k) = .ok (deriveKey k) := by
    simp only [getEncryptionKey]
    rw [if_neg (show ¬ k.length < 32 by omega)]
  have henc1 : encryptSecret (some k) iv1 pt =
      .ok ⟨b64encode (gcmSeal (deriveKey k) iv1 pt), b64encode iv1⟩ := by
    unfold encryptSecret
    rw [hkey]
    rfl
  have henc2 : encryptSecret (some k) iv2 pt =
      .ok ⟨b64encode (gcmSeal (deriveKey k) iv2 pt), b64encode iv2⟩ := by
    unfold encryptSecret
    rw [hkey]
    rfl
  have hb64ct : b64decode (b64encode (gcmSeal (deriveKey k) iv1 pt)) =
      some (gcmSeal (deriveKey k) iv1 pt) :=
    b64_roundtrip _ (gcmSeal_lt _ _ _ hpt)
  have hb64iv : b64decode (b64encode iv1) = some iv1 := b64_roundtrip _ hiv1
  have hdec : decryptSecret (some k) (b64encode (gcmSeal (deriveKey k) iv1 pt))
      (b64encode iv1) = .ok pt := by
    unfold decryptSecret
    rw [hkey]
    show (match b64decode (b64encode (gcmSeal (deriveKey k) iv1 pt)) with
      | some ct =>
        match b64decode (b64encode iv1) with
        | some ivB =>
          match gcmOpen (deriveKey k) ivB ct with
          | some p => Except.ok p
          | none => Except.error "Failed to decrypt secret. The encryption key may have changed."
        | none => Except.error "Failed to decrypt secret. The encryption key may have changed."
      | none => Except.error "Failed to decrypt secret. The encryption key may have changed.") =
      Except.ok pt
    rw [hb64ct, hb64iv]
    dsimp only
    rw [gcmOpen_gcmSeal]
  refine ⟨⟨_, henc1, hdec⟩, ?_⟩
  intro e1 e2 h1 h2 heq
  rw [henc1] at h1
  rw [henc2] at h2
  have he1 : e1.iv = b64encode iv1 := by
    rw [← Except.ok.inj h1]
  have he2 : e2.iv = b64encode iv2 := by
    rw [← Except.ok.inj h2]
  have hchunks : b64chunks iv1 = b64chunks iv2 := by
    have : b64encode iv1 = b64encode iv2 := by rw [← he1, ← he2, heq]
    exact congrArg String.data this
  have hsome : some iv1 = some iv2 := by
    rw [← b64_roundtrip iv1 hiv1, ← b64_roundtrip iv2 hiv2]
    show b64dechunks (b64chunks iv1) = b64dechunks (b64chunks iv2)
    rw [hchunks]
  exact hne (Option.some.inj hsome)

end Eifl

namespace Eifl

def c9Key : String := "0123456789abcdef0123456789abcdef"

def c9Pt : List Nat := [104, 101, 108, 108, 111]

def c9Iv1 : List Nat := [0, 1, 2, 3, 4, 5, 6, 7, 8, 9, 10, 11]

def c9Iv2 : List Nat := [11, 10, 9, 8, 7, 6, 5, 4, 3, 2, 1, 0]

/-- Witness for C9 at a concrete 32-character key, plaintext and IV pair. -/
theorem encryptSecret_roundtrip_distinct_witness :
    32 ≤ c9Key.length ∧ c9Iv1.length = 12 ∧ c9Iv2.length = 12 ∧ c9Iv1 ≠ c9Iv2 ∧
    ((∃ e, encryptSecret (some c9Key) c9Iv1 c9Pt = .ok e ∧
        decryptSecret (some c9Key) e.encrypted e.iv = .ok c9Pt) ∧
     (∀ e1 e2, encryptSecret (some c9Key) c9Iv1 c9Pt = .ok e1 →
        encryptSecret (some c9Key) c9Iv2 c9Pt = .ok e2 → e1 ≠ e2)) :=
  ⟨by decide, by decide, by decide, by decide,
    encryptSecret_roundtrip_distinct (some c9Key) c9Key c9Pt c9Iv1 c9Iv2 rfl
      (by decide) (by decide) (by decide) (by decide) (by decide) (by decide)
      (by decide)⟩

end Eifl
